import Mathlib

/-!
Verification development for a small compiler back end consisting of a
stackable open-addressing hash table (`map.c`) and a tree-to-assembly code
generator with an LRU register cache (`codegen.c`).

The C sources are shallowly embedded:

* C strings (map keys) become `List Nat` (the byte sequence of the string;
  bytes of a C string are nonzero, and `strcmp`-equality is byte-list
  equality).
* The stored `void *` values become `Nat`, standing for abstract non-null
  pointer identities (values actually stored by the program are `malloc`
  results, hence non-null, so `map_get`'s null test is modelled by
  `Option`).
* The parallel arrays `m->key` / `m->val`, whose entries are
  `NULL` / `TOMBSTONE` / a key pointer, are merged into one list of `Slot`
  values.  `m->key == NULL` (the un-allocated `EMPTY_MAP` state) is
  modelled by an empty slot list; whenever storage is allocated `m->size`
  always equals the array length, so the model uses `keys.length` for
  `m->size`.
* The C probe loops (`for (;;)`, `for (; key[i] != NULL;)`) are written as
  fuel recursion with fuel equal to the table capacity: the probe position
  `(i+1) & mask` cycles with period `size`, so a loop that has not stopped
  after `size` steps repeats forever (the C code would not terminate; in
  every state reachable through the API an empty slot exists, so the fuel
  is never exhausted there).
* `double` comparisons `nused < size * 0.7` and `nelem < size * 0.35` are
  modelled as the exact rational comparisons `10 * nused < 7 * size` and
  `20 * nelem < 7 * size`; for the power-of-two sizes the code produces,
  `0.7 * size` and `0.35 * size` are never within rounding distance of an
  integer, so the exact and floating comparisons agree.
* Parent chaining (`m->parent`) is modelled by lists of tables,
  innermost first; `map_get` walks the list.
-/

namespace EightCC

/-- One slot of the hash table: `NULL`, `TOMBSTONE`, or an occupied
key/value pair (merging the parallel `key`/`val` arrays of `map.c`). -/
inductive Slot where
  | empty
  | tomb
  | occ (k : List Nat) (v : Nat)
deriving DecidableEq, Repr

/-- The `Map` structure of map.c without its parent pointer: slot array
plus the `nelem` and `nused` counters (`size` is `keys.length`). -/
structure MapS where
  keys : List Slot
  nelem : Nat
  nused : Nat
deriving DecidableEq, Repr

/-- `hash` of map.c: 32-bit FNV-1a over the key's bytes. -/
def hashB (p : List Nat) : Nat :=
  p.foldl (fun r c => ((r ^^^ c) * 16777619) % 4294967296) 2166136261

/-- `do_make_map` of map.c (without the parent link): `calloc`ed slot
array of the given size, zero counters. -/
def do_make_map (size : Nat) : MapS :=
  { keys := List.replicate size .empty, nelem := 0, nused := 0 }

/-- `make_map`: a fresh table of `INIT_SIZE = 16` slots. -/
def make_map : MapS := do_make_map 16

/-- The inner reinsertion loop of `maybe_rehash`: probe linearly from `j`
for the first `NULL` slot of the new array and store the pair there. -/
def rehashIns (ks : List Slot) (k : List Nat) (v : Nat) : Nat → Nat → List Slot
  | _, 0 => ks
  | j, fuel+1 =>
    match ks.getD j .empty with
    | .empty => ks.set j (.occ k v)
    | _ => rehashIns ks k v ((j+1) &&& (ks.length - 1)) fuel

/-- The rehash proper (lines 44-63 of map.c): reinsert every occupied
slot of the old array, scanning it in index order, into a fresh
`calloc`ed array of `newsize` slots, then set `nused = nelem`. -/
def rehashed (m : MapS) (newsize : Nat) : MapS :=
  { keys := m.keys.foldl (fun acc s =>
      match s with
      | .occ k v => rehashIns acc k v (hashB k &&& (newsize - 1)) newsize
      | _ => acc) (List.replicate newsize .empty),
    nelem := m.nelem, nused := m.nelem }

/-- `maybe_rehash` of map.c: allocate lazily; return unless
`nused >= size * 0.7`; otherwise rehash (into a same-size array when
`nelem < size * 0.35`, a doubled one otherwise). -/
def maybe_rehash (m : MapS) : MapS :=
  if m.keys.length = 0 then
    { m with keys := List.replicate 16 .empty }
  else if 10 * m.nused < 7 * m.keys.length then m
  else rehashed m (if 20 * m.nelem < 7 * m.keys.length then m.keys.length else 2 * m.keys.length)

/-- The probe loop of `map_put`: at a `NULL` or `TOMBSTONE` slot insert the
pair there, bumping `nelem` always and `nused` only for a `NULL` slot; at a
slot whose key compares equal overwrite the value; otherwise continue at
`(i+1) & mask`. -/
def putLoop (m : MapS) (key : List Nat) (v : Nat) : Nat → Nat → MapS
  | _, 0 => m
  | i, fuel+1 =>
    match m.keys.getD i .empty with
    | .empty => { m with keys := m.keys.set i (.occ key v), nelem := m.nelem + 1, nused := m.nused + 1 }
    | .tomb  => { m with keys := m.keys.set i (.occ key v), nelem := m.nelem + 1 }
    | .occ k _ =>
      if k = key then { m with keys := m.keys.set i (.occ k v) }
      else putLoop m key v ((i+1) &&& (m.keys.length - 1)) fuel

/-- `map_put` of map.c: pre-insert rehash check, then probe from
`hash(key) & mask`. -/
def map_put (m : MapS) (key : List Nat) (v : Nat) : MapS :=
  let m1 := maybe_rehash m
  putLoop m1 key v (hashB key &&& (m1.keys.length - 1)) m1.keys.length

/-- The probe loop of `map_get_nostack`: stop with `none` at a `NULL`
slot, skip tombstones and non-matching keys, return the value stored
beside a matching key. -/
def getLoop (ks : List Slot) (key : List Nat) : Nat → Nat → Option Nat
  | _, 0 => none
  | i, fuel+1 =>
    match ks.getD i .empty with
    | .empty => none
    | .tomb => getLoop ks key ((i+1) &&& (ks.length - 1)) fuel
    | .occ k v => if k = key then some v else getLoop ks key ((i+1) &&& (ks.length - 1)) fuel

/-- `map_get_nostack` of map.c: single-table lookup (no parent search). -/
def map_get_nostack (m : MapS) (key : List Nat) : Option Nat :=
  if m.keys.length = 0 then none
  else getLoop m.keys key (hashB key &&& (m.keys.length - 1)) m.keys.length

/-- `map_get` of map.c on a parent chain (innermost table first): if the
lookup in the first table finds nothing, continue in the ancestors. -/
def map_get : List MapS → List Nat → Option Nat
  | [], _ => none
  | m :: ps, key =>
    match map_get_nostack m key with
    | some v => some v
    | none => map_get ps key

/-- The probe loop of `map_remove`: stop silently at a `NULL` slot, skip
tombstones and non-matching keys, and turn a matching slot into a
tombstone (key becomes TOMBSTONE, val becomes NULL), decrementing `nelem` only. -/
def removeLoop (m : MapS) (key : List Nat) : Nat → Nat → MapS
  | _, 0 => m
  | i, fuel+1 =>
    match m.keys.getD i .empty with
    | .empty => m
    | .tomb => removeLoop m key ((i+1) &&& (m.keys.length - 1)) fuel
    | .occ k _ =>
      if k = key then { m with keys := m.keys.set i .tomb, nelem := m.nelem - 1 }
      else removeLoop m key ((i+1) &&& (m.keys.length - 1)) fuel

/-- `map_remove` of map.c (no-op when storage was never allocated). -/
def map_remove (m : MapS) (key : List Nat) : MapS :=
  if m.keys.length = 0 then m
  else removeLoop m key (hashB key &&& (m.keys.length - 1)) m.keys.length

/-- `map_len` of map.c: the live element count `nelem`. -/
def map_len (m : MapS) : Nat := m.nelem

/-- A `put` or `remove` call on one table. -/
inductive Op where
  | put (k : List Nat) (v : Nat)
  | del (k : List Nat)
deriving DecidableEq, Repr

/-- Run a sequence of `map_put`/`map_remove` calls against a table. -/
def runOps (ops : List Op) (m : MapS) : MapS :=
  ops.foldl (fun m op =>
    match op with
    | .put k v => map_put m k v
    | .del k => map_remove m k) m

/-- `op` is a `put`. -/
def Op.isPut : Op → Prop
  | .put _ _ => True
  | .del _ => False

instance : DecidablePred Op.isPut := fun op => by
  cases op <;> simp [Op.isPut] <;> infer_instance

/-- The keys of the occupied slots, in slot-array order. -/
def liveKeys (m : MapS) : List (List Nat) :=
  m.keys.filterMap fun s => match s with | .occ k _ => some k | _ => none

/-- The key/value pairs of the occupied slots, in slot-array order. -/
def occPairs (m : MapS) : List (List Nat × Nat) :=
  m.keys.filterMap fun s => match s with | .occ k v => some (k, v) | _ => none

/-- The distinct keys of the table for which a single-table `map_get`
actually finds a value.  Every key that `map_get_nostack` can return sits
in an occupied slot (`getLoop_some_mem`), so this list enumerates exactly
the gettable keys of the table. -/
def liveGettable (m : MapS) : List (List Nat) :=
  (liveKeys m).dedup.filter fun k => (map_get_nostack m k).isSome

/-!  The map iterator (`map_iter` / `map_next` of map.c).  The iterator
state is the chain (`iter->map`, fixed), the number `d` of tables already
exhausted (`iter->cur` is `chain.drop d`), and the slot cursor `i`. -/

/-- `do_map_next` of map.c: scan the current table's slots from `i` for
the next occupied one; yield its pair and the new cursor. -/
def scanFrom (ks : List Slot) : Nat → Nat → Option ((List Nat × Nat) × Nat)
  | _, 0 => none
  | i, fuel+1 =>
    if i < ks.length then
      match ks.getD i .empty with
      | .occ k v => some ((k, v), i+1)
      | _ => scanFrom ks (i+1) fuel
    else none

/-- `is_dup` of map.c: is the key bound in one of the tables that are
more nested than the current one (`iter->map` up to, excluding,
`iter->cur`)? -/
def is_dup (chain : List MapS) (d : Nat) (k : List Nat) : Bool :=
  (chain.take d).any fun p => (map_get_nostack p k).isSome

/-- `map_next` of map.c: yield the next occupied slot of the current
table that is not shadowed by a more nested table, advancing to the
parent when the current table is exhausted. -/
def map_next (chain : List MapS) : Nat → Nat → Nat → Option ((List Nat × Nat) × Nat × Nat)
  | _, _, 0 => none
  | d, i, fuel+1 =>
    match chain.drop d with
    | [] => none
    | cur :: _ =>
      match scanFrom cur.keys i (cur.keys.length + 1) with
      | some (kv, i') =>
        if is_dup chain d kv.1 then map_next chain d i' fuel
        else some (kv, d, i')
      | none => map_next chain (d+1) 0 fuel

/-- Fuel that dominates the number of internal steps a whole iteration
can take: every slot of every table plus one parent hop per table. -/
def totalFuel (chain : List MapS) : Nat :=
  (chain.map (fun m => m.keys.length)).sum + chain.length + 1

/-- Drive `map_next` to exhaustion, collecting every yielded pair. -/
def iterCollect (chain : List MapS) : Nat → Nat → Nat → List (List Nat × Nat)
  | _, _, 0 => []
  | d, i, steps+1 =>
    match map_next chain d i (totalFuel chain) with
    | some (kv, d', i') => kv :: iterCollect chain d' i' steps
    | none => []

/-- The full sequence of pairs yielded by iterating a chain from a fresh
`map_iter` (which starts at the innermost table with cursor 0). -/
def mapIterList (chain : List MapS) : List (List Nat × Nat) :=
  iterCollect chain 0 0 (totalFuel chain)

/-!  The code generator (`codegen.c`). -/

/-- `Mem` of codegen.c: a stack-slot descriptor (negative frame offset
and size in bytes). -/
structure Mem where
  off : Int
  size : Nat
deriving DecidableEq, Repr

/-- A `Var *` operand: a computed variable (identified by the globally
unique `id` which `make_var` assigns) or an integer literal.  The mutable
per-variable fields (`off`, `spilled`) live in the emission state. -/
inductive VarRef where
  | var (id : Nat)
  | lit (v : Int)
deriving DecidableEq, Repr

/-- `Inst` of codegen.c, with the operand shapes each opcode actually
uses in `walk`/`print` (the `ALLOC` opcode is never emitted). -/
inductive Inst where
  | add (dst l r : VarRef)
  | mul (dst l r : VarRef)
  | ret (v : VarRef)
  | load (dst : VarRef) (m : Mem)
  | store (m : Mem) (src : VarRef)
deriving DecidableEq, Repr

/-- The input tree shapes `walk` supports.  `decl` carries the
declaration's type size and the optional initializer expression (the
`initval` of the first element of `declinit` when that vector is
non-empty). -/
inductive Node where
  | decl (varname : List Nat) (tysize : Nat) (ini : Option Node)
  | lvar (varname : List Nat)
  | compound (stmts : List Node)
  | ret (e : Node)
  | conv (e : Node)
  | nadd (l r : Node)
  | nmul (l r : Node)
  | lit (v : Int)

/-- The translator's global mutable state in codegen.c: the `mems`,
`vars` and `insts` vectors, the `lvars` table, the running frame
`offset`, and `make_var`'s static id counter.  A `Mem *` stored in
`lvars` is modelled by the index of the `Mem` in the `mems` vector. -/
structure CG where
  mems : List Mem
  lvars : MapS
  vars : List Nat
  insts : List Inst
  offset : Nat
  nextId : Nat
deriving DecidableEq, Repr

/-- The initial state: empty vectors, `lvars = &EMPTY_MAP` (no storage
allocated), offset 0, first variable id 1. -/
def cg0 : CG :=
  { mems := [], lvars := { keys := [], nelem := 0, nused := 0 },
    vars := [], insts := [], offset := 0, nextId := 1 }

/-- `make_mem` of codegen.c: grow the frame by `size` bytes and descend
the offset. -/
def make_mem (size : Nat) (cg : CG) : Mem × CG :=
  (⟨-(Int.ofNat (cg.offset + size)), size⟩, { cg with offset := cg.offset + size })

/-- `alloc` of codegen.c: `make_mem` plus pushing the slot on the `mems`
vector; also returns the slot's index in that vector (the model of its
pointer identity). -/
def allocMem (size : Nat) (cg : CG) : Nat × Mem × CG :=
  let (m, cg1) := make_mem size cg
  (cg1.mems.length, m, { cg1 with mems := cg1.mems ++ [m] })

/-- `make_var` of codegen.c: a fresh computed variable with the next id,
pushed on the `vars` vector.  (The C code `malloc`s the `Var` and never
initializes its `spilled` field; that indeterminate initial flag is
modelled by the `spilled` component of the emission state below.) -/
def make_var (cg : CG) : VarRef × CG :=
  (VarRef.var cg.nextId, { cg with nextId := cg.nextId + 1, vars := cg.vars ++ [cg.nextId] })

mutual
/-- `walk` of codegen.c (mutually with the statement-list loop of
`AST_COMPOUND_STMT`).  Returns `none` where the C code hits
`assert`/`error` (unbound variable name), and also where the C code would
pass a `NULL` `Var *` into an instruction operand (an expression position
filled by a statement), which crashes `print`; the claims quantify over
programs the C code translates successfully. -/
def walk : Node → CG → Option (Option VarRef × CG)
  | .decl name tysize ini, cg =>
    let (mid, m, cg1) := allocMem (max tysize 8) cg
    let cg2 := { cg1 with lvars := map_put cg1.lvars name mid }
    match ini with
    | some e =>
      match walk e cg2 with
      | some (some rhs, cg3) => some (none, { cg3 with insts := cg3.insts ++ [.store m rhs] })
      | _ => none
    | none => some (none, cg2)
  | .lvar name, cg =>
    match map_get_nostack cg.lvars name with
    | some mid =>
      let m := cg.mems.getD mid ⟨0, 0⟩
      let (r, cg1) := make_var cg
      some (some r, { cg1 with insts := cg1.insts ++ [.load r m] })
    | none => none
  | .compound stmts, cg =>
    match walkList stmts cg with
    | some cg1 => some (none, cg1)
    | none => none
  | .ret e, cg =>
    match walk e cg with
    | some (some v, cg1) => some (none, { cg1 with insts := cg1.insts ++ [.ret v] })
    | _ => none
  | .conv e, cg => walk e cg
  | .nadd l r, cg =>
    let (dst, cga) := make_var cg
    match walk l cga with
    | some (some lv, cg1) =>
      match walk r cg1 with
      | some (some rv, cg2) => some (some dst, { cg2 with insts := cg2.insts ++ [.add dst lv rv] })
      | _ => none
    | _ => none
  | .nmul l r, cg =>
    let (dst, cga) := make_var cg
    match walk l cga with
    | some (some lv, cg1) =>
      match walk r cg1 with
      | some (some rv, cg2) => some (some dst, { cg2 with insts := cg2.insts ++ [.mul dst lv rv] })
      | _ => none
    | _ => none
  | .lit v, cg => some (some (VarRef.lit v), cg)

/-- Body of the `AST_COMPOUND_STMT` loop: walk each statement in order. -/
def walkList : List Node → CG → Option CG
  | [], cg => some cg
  | n :: rest, cg =>
    match walk n cg with
    | some (_, cg1) => walkList rest cg1
    | none => none
end

/-- The single function `translate` accepts: its name and body. -/
structure Program where
  fname : String
  body : Node

/-- `translate` of codegen.c, after its structural asserts: walk the
function body from the fresh global state. -/
def translate (p : Program) : Option (String × CG) :=
  match walk p.body cg0 with
  | some (_, cg) => some (p.fname, cg)
  | none => none

/-- `regalloc` of codegen.c: give every computed variable (in creation
order) a fresh 8-byte slot below the current offset.  Returns the
id → offset assignment and the final frame offset. -/
def regalloc (cg : CG) : List (Nat × Int) × Nat :=
  cg.vars.foldl (fun acc id => (acc.1 ++ [(id, -(Int.ofNat (acc.2 + 8)))], acc.2 + 8)) ([], cg.offset)

/-- The register cache `reg2var` plus the per-variable `spilled` flags
and the emitted lines.  `order` is the occupied prefix of the 6-slot
array, most recently used first (slots fill front-to-back, are never
vacated, and `move_to_head` rotates a prefix, so the occupied slots of
the C array are always exactly such a prefix).  `spilled` is the set of
variable ids whose `spilled` flag reads as true; its initial value
models the indeterminate contents `malloc` leaves in the field that
`make_var` never initializes. -/
structure RA where
  order : List (Nat × String)
  spilled : List Nat
  out : List String
deriving DecidableEq, Repr

/-- The `regs` array of codegen.c. -/
def regsL : List String := ["rdi", "rsi", "rdx", "rcx", "r8", "r9"]

/-- Look up the stack offset `regalloc` assigned to a variable id. -/
def lookupOff (voff : List (Nat × Int)) (id : Nat) : Int :=
  ((voff.find? (fun e => e.1 = id)).map (fun e => e.2)).getD 0

/-- Position of a variable in the cache, if present. -/
def findIdx (l : List (Nat × String)) (id : Nat) : Option Nat :=
  match l with
  | [] => none
  | e :: tl => if e.1 = id then some 0 else (findIdx tl id).map (· + 1)

/-- `move_to_head` of codegen.c: rotate slot `i` to the front, shifting
slots `0..i-1` down one. -/
def move_to_head (l : List (Nat × String)) (i : Nat) : List (Nat × String) :=
  match l.get? i with
  | some e => e :: (l.take i ++ l.drop (i+1))
  | none => l

/-- `regname` of codegen.c.  Cached: rotate to front and return the
register.  Empty slot available: bind `v` there (the first empty slot is
the one after the occupied prefix, paired with the next unused register
name) and rotate to front.  Full: evict the least recently used slot,
emitting a spill of the evicted variable to its own offset and marking
it spilled, then a load of `v`'s offset into the freed register when
`v`'s spilled flag reads true. -/
def regname (voff : List (Nat × Int)) (id : Nat) (s : RA) : String × RA :=
  match findIdx s.order id with
  | some i =>
    let ord := move_to_head s.order i
    ((ord.headD (0, "")).2, { s with order := ord })
  | none =>
    if s.order.length < 6 then
      let reg := regsL.getD s.order.length ""
      (reg, { s with order := (id, reg) :: s.order })
    else
      let last := s.order.getLastD (0, "")
      let spillLine := "    movq %" ++ last.2 ++ ", " ++ toString (lookupOff voff last.1) ++ "(%rbp)  # spill"
      let loadLines := if s.spilled.contains id then
          ["    movq " ++ toString (lookupOff voff id) ++ "(%rbp), %" ++ last.2 ++ "  # load"]
        else []
      (last.2, { order := (id, last.2) :: s.order.dropLast,
                 spilled := s.spilled ++ [last.1],
                 out := s.out ++ [spillLine] ++ loadLines })

/-- `str` of codegen.c: a computed variable renders as its register, a
literal as an immediate. -/
def str (voff : List (Nat × Int)) (v : VarRef) (s : RA) : String × RA :=
  match v with
  | .var id => let (r, s1) := regname voff id s; ("%" ++ r, s1)
  | .lit n => ("$" ++ toString n, s)

/-- `write` of codegen.c: four spaces of indentation before the text. -/
def wr (s : String) : String := "    " ++ s

/-- One instruction of `print` in codegen.c.  The `str` calls that feed a
`write` run before the line is emitted (their spill/load lines precede
it); the C argument evaluation order between two `str` calls in one
`write` is unspecified, the model fixes left-to-right. -/
def printInst (voff : List (Nat × Int)) (s : RA) : Inst → RA
  | .add dst l r =>
    let (sl, s1) := str voff l s
    let (sd, s2) := str voff dst s1
    let s3 := { s2 with out := s2.out ++ [wr ("movq " ++ sl ++ ", " ++ sd)] }
    let (sr, s4) := str voff r s3
    let (sd2, s5) := str voff dst s4
    { s5 with out := s5.out ++ [wr ("addq " ++ sr ++ ", " ++ sd2)] }
  | .mul dst l r =>
    let (sl, s1) := str voff l s
    let (sd, s2) := str voff dst s1
    let s3 := { s2 with out := s2.out ++ [wr ("movq " ++ sl ++ ", " ++ sd)] }
    let (sr, s4) := str voff r s3
    let (sd2, s5) := str voff dst s4
    { s5 with out := s5.out ++ [wr ("imulq " ++ sr ++ ", " ++ sd2)] }
  | .ret v =>
    let (sv, s1) := str voff v s
    { s1 with out := s1.out ++ [wr ("movq " ++ sv ++ ", %rax"), wr "jmp end"] }
  | .load dst m =>
    let (sd, s1) := str voff dst s
    { s1 with out := s1.out ++ [wr ("movq " ++ toString m.off ++ "(%rbp), " ++ sd)] }
  | .store m src =>
    let (sv, s1) := str voff src s
    { s1 with out := s1.out ++ [wr ("movq " ++ sv ++ ", " ++ toString m.off ++ "(%rbp)")] }

/-- `print` of codegen.c: lower every instruction in order. -/
def printInsts (voff : List (Nat × Int)) (insts : List Inst) (s : RA) : RA :=
  insts.foldl (printInst voff) s

/-- `compile` of codegen.c: `regalloc`, directives and label (unindented
via `write_noindent`), prologue, body, then the epilogue — whose `end:`
label the C code emits through the indenting `write`, like the
mnemonics.  `sig0` is the set of variable ids whose never-initialized
`spilled` flag happens to read true. -/
def compile (name : String) (cg : CG) (sig0 : List Nat) : List String :=
  let ra := regalloc cg
  [".text", ".globl " ++ name, name ++ ":",
   wr "push %rbp", wr "mov %rsp, %rbp", wr ("sub $" ++ toString ra.2 ++ ", %rsp")] ++
  (printInsts ra.1 cg.insts { order := [], spilled := sig0, out := [] }).out ++
  [wr "end:", wr ("add $" ++ toString ra.2 ++ ", %rsp"), wr "popq %rbp", wr "ret"]

/-- `codegen` of codegen.c: translate, then compile. -/
def codegen (p : Program) (sig0 : List Nat) : Option (List String) :=
  (translate p).map (fun r => compile r.1 r.2 sig0)

/-- A fresh emission state with the given indeterminate spilled flags. -/
def ra0 (sig0 : List Nat) : RA := { order := [], spilled := sig0, out := [] }

/-- Resolve a sequence of variable ids through `regname` in order. -/
def resolveSeq (voff : List (Nat × Int)) (ids : List Nat) (s : RA) : RA :=
  ids.foldl (fun s id => (regname voff id s).2) s

/-- The variable ids currently cached, most recently used first. -/
def cachedIds (s : RA) : List Nat := s.order.map (fun e => e.1)

/-- The eviction victims of one `regname` step: ids cached before but not
after (empty list when nothing was evicted, never more than one id). -/
def evictedBy (s s' : RA) : List Nat :=
  (cachedIds s).filter (fun id => ¬ (cachedIds s').contains id)

/-!  Concrete tables used by the counterexamples.  The single-byte keys
`"a" = [97]` and `"q" = [113]` both hash to home slot 12 of a 16-slot
table; `"@" = [64]` and `"0" = [48]` both hash to home slot 15. -/

/-- put a, put q, remove a, put q: the tombstone left at q's home slot is
reused by the second put of q although q still occupies the next slot. -/
def dupOps : List Op := [.put [97] 1, .put [113] 2, .del [97], .put [113] 3]

/-- The table that results from `dupOps`. -/
def dupM : MapS := runOps dupOps make_map

/-- Twelve distinct keys inserted into a fresh 16-slot table: the last
insertion sees `nused = 11 < 11.2`, so no rehash runs, and afterwards
`nused = 12`, i.e. load factor 0.75. -/
def loadOps : List Op := (List.range 12).map (fun i => .put [49 + i] (i + 1))

/-- put @, put 0 ↦ 55, remove @ (tombstone at slot 15), put 0 ↦ 100
(lands in the tombstone at slot 15 while 0 ↦ 55 stays in slot 0), then
eleven puts of fresh keys, the last of which triggers the doubling
rehash: the array scan reinserts slot 0 (the stale 0 ↦ 55) before
slot 15 (the live 0 ↦ 100), so the stale pair ends up first on the
probe path. -/
def staleOps : List Op :=
  [.put [64] 1, .put [48] 55, .del [64], .put [48] 100] ++
  ((List.range 10).map (fun i => .put [65 + i] (i + 1))) ++ [.put [99] 77]

/-- A parent table binding the key `[113]`. -/
def parentM : MapS := runOps [.put [113] 9] make_map

/-- A value found by the probe loop of `map_get_nostack` always comes
from an occupied slot of the array. -/
theorem getLoop_some_occ {ks : List Slot} {key : List Nat} {v : Nat} :
    ∀ {fuel i : Nat}, getLoop ks key i fuel = some v → Slot.occ key v ∈ ks := by
  intro fuel
  induction fuel with
  | zero => intro i h; simp [getLoop] at h
  | succ n ih =>
    intro i h
    unfold getLoop at h
    revert h
    cases hslot : ks.getD i .empty with
    | empty => intro h; simp at h
    | tomb => intro h; exact ih h
    | occ k w =>
      intro h
      by_cases hk : k = key
      · simp [hk] at h
        subst hk h
        have hi : i < ks.length := by
          by_contra hge
          rw [List.getD_eq_default _ _ (Nat.le_of_not_lt hge)] at hslot
          exact Slot.noConfusion hslot
        rw [List.getD_eq_getElem _ _ hi] at hslot
        exact hslot ▸ List.getElem_mem hi
      · simp [hk] at h
        exact ih h

/-- A key `map_get_nostack` finds is among the keys of the occupied
slots. -/
theorem get_nostack_some_live {m : MapS} {key : List Nat} {v : Nat}
    (h : map_get_nostack m key = some v) : key ∈ liveKeys m := by
  unfold map_get_nostack at h
  split at h
  · exact absurd h (by simp)
  · have := getLoop_some_occ h
    unfold liveKeys
    exact List.mem_filterMap.mpr ⟨Slot.occ key v, this, rfl⟩

/-- C1 counterexample: after put "a", put "q", remove "a", put "q", the
key `[113]` ("q") occupies two slots, so the keys of the table are not
unique — `map_put` reused the tombstone on q's probe path instead of
overwriting q's existing binding. -/
theorem map_put_duplicate_key : ¬ (liveKeys dupM).Nodup := by decide

/-- C2 counterexample: after twelve puts of distinct keys into a fresh
table, `nused = 12` and the capacity is 16, so the load factor is
`12/16 = 0.75 > 0.7`. -/
theorem load_factor_exceeds_seven_tenths :
    7 * (runOps loadOps make_map).keys.length < 10 * (runOps loadOps make_map).nused := by decide

/-- C3 counterexample: in `dupM` the element count is 2 but exactly one
distinct key is reachable via single-table `get` (the duplicated key
`[113]`), so `len` overcounts. -/
theorem map_len_ne_gettable_count :
    map_len dupM = 2 ∧ (liveGettable dupM).length = 1 := by decide

/-- C4 counterexample: the pair `([48], 100)` ("0" ↦ 100) is inserted by
`put` and never removed, and is followed only by insertions of other
keys; yet after the rehash those insertions trigger, `get` returns the
stale value 55 from an earlier, tombstone-shadowed binding of the same
key. -/
theorem get_after_rehash_returns_stale_value :
    map_get [runOps staleOps make_map] [48] = some 55 ∧ (55 : Nat) ≠ 100 := by decide

/-- C5 counterexample: with parent `parentM` and child `dupM` both
binding `[113]`, iterating the child chain yields the key `[113]` twice
(both child bindings), not exactly once. -/
theorem iter_yields_key_twice :
    ((mapIterList [dupM, parentM]).filter (fun e => e.1 = [113])).length = 2 := by decide

/-- The offsets `regalloc` would assign to seven computed variables
created in order with an empty frame: id i ↦ -8i. -/
def voff7 : List (Nat × Int) :=
  [(1, -8), (2, -16), (3, -24), (4, -32), (5, -40), (6, -48), (7, -56)]

/-- C7 failing-input evaluation: variables 1..6 fill all six registers
(no spills yet); variable 7 is freshly created, but its `spilled` flag —
which `make_var` never initializes — happens to read true (`sig0 = [7]`).
Resolving it then spills variable 1 to its own offset -8 and *also*
emits a load of 7's stack slot, although nothing was ever stored there. -/
theorem fresh_var_spurious_load :
    (regname voff7 7 (resolveSeq voff7 [1, 2, 3, 4, 5, 6] (ra0 [7]))).2.out =
      ["    movq %rdi, -8(%rbp)  # spill", "    movq -56(%rbp), %rdi  # load"] := by decide

/-- A function body `return 0;`. -/
def progMin : Program := { fname := "f", body := .ret (.lit 0) }

/-- C9 counterexample: compiling `return 0;` emits the epilogue label as
the four-space-indented line `    end:` (through `write`, like a
mnemonic), and no unindented `end:` line appears anywhere. -/
theorem end_label_is_indented :
    codegen progMin [] = some
      [".text", ".globl f", "f:",
       "    push %rbp", "    mov %rsp, %rbp", "    sub $0, %rsp",
       "    movq $0, %rax", "    jmp end",
       "    end:", "    add $0, %rsp", "    popq %rbp", "    ret"] ∧
    "end:" ∉ [".text", ".globl f", "f:",
       "    push %rbp", "    mov %rsp, %rbp", "    sub $0, %rsp",
       "    movq $0, %rax", "    jmp end",
       "    end:", "    add $0, %rsp", "    popq %rbp", "    ret"] := by decide

/-!  Arithmetic and counting infrastructure for the probe-sequence
proofs.  Probe positions are computed with `&&& (size - 1)` in the code;
for the power-of-two sizes the table always has, this is `% size`. -/

/-- Masking with `2^w - 1` is reduction modulo `2^w`. -/
theorem and_two_pow_sub_one_mod (x w : Nat) : x &&& (2 ^ w - 1) = x % 2 ^ w := by
  apply Nat.eq_of_testBit_eq
  intro i
  rw [Nat.testBit_and, Nat.testBit_mod_two_pow, Nat.testBit_two_pow_sub_one, Bool.and_comm]

/-- The next probe position, under a power-of-two length. -/
theorem step_mask {n : Nat} (hpow : ∃ w, n = 2 ^ w) (i : Nat) :
    (i + 1) &&& (n - 1) = (i + 1) % n := by
  obtain ⟨w, rfl⟩ := hpow
  exact and_two_pow_sub_one_mod _ _

/-- Masking with `n - 1` stays below `n` for positive `n`. -/
theorem and_mask_lt {n : Nat} (hn : 0 < n) (i : Nat) : i &&& (n - 1) < n :=
  Nat.lt_of_le_of_lt Nat.and_le_right (by omega)

/-- Stepping the probe start one slot shifts the visited sequence by
one. -/
theorem probe_shift {n : Nat} (i t : Nat) :
    ((i + 1) % n + t) % n = (i + (t + 1)) % n := by
  rw [Nat.mod_add_mod]
  congr 1
  omega

/-- Number of slots that hold a key/value pair. -/
def countOcc (ks : List Slot) : Nat :=
  ks.countP fun s => match s with | .occ _ _ => true | _ => false

/-- Number of tombstone slots. -/
def countTomb (ks : List Slot) : Nat :=
  ks.countP fun s => match s with | .tomb => true | _ => false

/-- Number of non-`NULL` slots (occupied or tombstone) — what `nused`
counts. -/
def countUsed (ks : List Slot) : Nat :=
  ks.countP fun s => match s with | .empty => false | _ => true

/-- Number of slots holding the key `k`. -/
def keyCount (ks : List Slot) (k : List Nat) : Nat :=
  ks.countP fun s => match s with | .occ k' _ => k' = k | _ => false

/-- Writing one slot exchanges its contribution to any slot count. -/
theorem countP_set (p : Slot → Bool) :
    ∀ (ks : List Slot) (i : Nat) (x : Slot), i < ks.length →
      (ks.set i x).countP p + (if p (ks.getD i .empty) then 1 else 0) =
        ks.countP p + (if p x then 1 else 0) := by
  intro ks
  induction ks with
  | nil => intro i x h; simp at h
  | cons a l ih =>
    intro i x h
    cases i with
    | zero => simp [List.countP_cons]; omega
    | succ j =>
      have hj : j < l.length := by simpa using h
      have := ih j x hj
      simp only [List.set_cons_succ, List.countP_cons, List.getD_cons_succ]
      omega

/-- A count below the length forces a slot violating the predicate. -/
theorem exists_slot_not_of_countP_lt {p : Slot → Bool} {ks : List Slot}
    (h : ks.countP p < ks.length) :
    ∃ j, j < ks.length ∧ p (ks.getD j .empty) = false := by
  by_contra hall
  push_neg at hall
  have : ∀ a ∈ ks, p a := by
    intro a ha
    obtain ⟨j, hj, rfl⟩ := List.mem_iff_getElem.mp ha
    have := hall j hj
    rw [List.getD_eq_getElem?_getD, List.getElem?_eq_getElem hj] at this
    simpa using eq_true_of_ne_false this
  have := List.countP_eq_length.mpr this
  omega

/-- Two distinct positions satisfying a predicate force a count of at
least two. -/
theorem two_le_countP {p : Slot → Bool} :
    ∀ {ks : List Slot} {i j : Nat}, i < j → j < ks.length →
      p (ks.getD i .empty) = true → p (ks.getD j .empty) = true →
      2 ≤ ks.countP p := by
  intro ks
  induction ks with
  | nil => intro i j _ hj; simp at hj
  | cons a l ih =>
    intro i j hij hj hpi hpj
    cases i with
    | zero =>
      simp only [List.getD_cons_zero] at hpi
      obtain ⟨j', rfl⟩ : ∃ j', j = j' + 1 := ⟨j - 1, by omega⟩
      simp only [List.getD_cons_succ] at hpj
      have hj' : j' < l.length := by simpa using hj
      have h1 : 0 < l.countP p := by
        apply List.countP_pos_iff.mpr
        refine ⟨l.getD j' .empty, ?_, hpj⟩
        rw [List.getD_eq_getElem?_getD, List.getElem?_eq_getElem hj']
        simp only [Option.getD_some]
        exact List.getElem_mem hj'
      rw [List.countP_cons_of_pos _ _ hpi]
      omega
    | succ i' =>
      obtain ⟨j', rfl⟩ : ∃ j', j = j' + 1 := ⟨j - 1, by omega⟩
      simp only [List.getD_cons_succ] at hpi hpj
      have := ih (by omega) (by simpa using hj) hpi hpj
      rw [List.countP_cons]
      omega

/-- If some slot satisfies `P`, the probe sequence starting anywhere has
a well-defined first `P`-slot, within one full cycle. -/
theorem exists_first_stop {P : Slot → Prop} [DecidablePred P] {ks : List Slot} {n i j : Nat}
    (hn : n = ks.length) (hin : i < n) (hjn : j < n) (hP : P (ks.getD j .empty)) :
    ∃ d, d < n ∧ P (ks.getD ((i + d) % n) .empty) ∧
      ∀ t, t < d → ¬ P (ks.getD ((i + t) % n) .empty) := by
  have harith : (i + (j + (n - i)) % n) % n = j := by
    rw [Nat.add_mod_mod]
    have h1 : i + (j + (n - i)) = j + n := by omega
    rw [h1, Nat.add_mod_right, Nat.mod_eq_of_lt hjn]
  have hex : ∃ t, P (ks.getD ((i + t) % n) .empty) := ⟨(j + (n - i)) % n, by rw [harith]; exact hP⟩
  classical
  refine ⟨Nat.find hex, ?_, Nat.find_spec hex, fun t ht => Nat.find_min hex ht⟩
  have hle : Nat.find hex ≤ (j + (n - i)) % n := Nat.find_min' hex (by rw [harith]; exact hP)
  exact Nat.lt_of_le_of_lt hle (Nat.mod_lt _ (by omega))

/-- Slots at which the `map_put` probe keeps going: occupied by a
different key. -/
def putCont (key : List Nat) (s : Slot) : Bool :=
  match s with | .occ k _ => k ≠ key | _ => false

/-- Slots at which the `map_get_nostack`/`map_remove` probes keep
going: a tombstone or a different key. -/
def getCont (key : List Nat) (s : Slot) : Bool :=
  match s with | .tomb => true | .occ k _ => k ≠ key | _ => false

/-- Slots at which the rehash insertion probe keeps going: any
non-`NULL` slot. -/
def rehCont (s : Slot) : Bool :=
  match s with | .empty => false | _ => true

/-- A put probe that continues for `d` slots and stops at the `d`-th
computes whatever one final step at the stopping slot computes. -/
theorem putLoop_probe {m : MapS} {key : List Nat} {v : Nat} {n : Nat}
    (hn : n = m.keys.length) (hpow : ∃ w, n = 2 ^ w) :
    ∀ d i fuel, i < n → d < fuel →
      (∀ t, t < d → putCont key (m.keys.getD ((i + t) % n) .empty) = true) →
      putCont key (m.keys.getD ((i + d) % n) .empty) = false →
      putLoop m key v i fuel = putLoop m key v ((i + d) % n) 1 := by
  intro d
  induction d with
  | zero =>
    intro i fuel hi hf hcont hstop
    obtain ⟨f, rfl⟩ : ∃ f, fuel = f + 1 := ⟨fuel - 1, by omega⟩
    have hij : (i + 0) % n = i := by rw [Nat.add_zero, Nat.mod_eq_of_lt hi]
    rw [hij] at hstop ⊢
    cases hs : m.keys.getD i .empty with
    | empty => simp only [putLoop]; rw [hs]
    | tomb => simp only [putLoop]; rw [hs]
    | occ k v' =>
      rw [hs] at hstop
      have hk : k = key := by simpa [putCont] using hstop
      simp only [putLoop]; rw [hs]; simp [hk]
  | succ d ih =>
    intro i fuel hi hf hcont hstop
    obtain ⟨f, rfl⟩ : ∃ f, fuel = f + 1 := ⟨fuel - 1, by omega⟩
    have hn0 : 0 < n := by omega
    have h0 := hcont 0 (by omega)
    have hij : (i + 0) % n = i := by rw [Nat.add_zero, Nat.mod_eq_of_lt hi]
    rw [hij] at h0
    have hstep : (i + 1) &&& (m.keys.length - 1) = (i + 1) % n := by
      rw [← hn]; exact step_mask hpow i
    have hi' : (i + 1) % n < n := Nat.mod_lt _ hn0
    have hrest : ∀ t, t < d → putCont key (m.keys.getD (((i + 1) % n + t) % n) .empty) = true := by
      intro t ht
      rw [probe_shift]
      exact hcont (t + 1) (by omega)
    have hstop' : putCont key (m.keys.getD (((i + 1) % n + d) % n) .empty) = false := by
      rw [probe_shift]
      exact hstop
    have hrec := ih ((i + 1) % n) f hi' (by omega) hrest hstop'
    rw [probe_shift] at hrec
    cases hs : m.keys.getD i .empty with
    | empty => rw [hs] at h0; simp [putCont] at h0
    | tomb => rw [hs] at h0; simp [putCont] at h0
    | occ k v' =>
      rw [hs] at h0
      have hk : ¬ k = key := by simpa [putCont] using h0
      rw [← hrec, ← hstep]
      simp only [putLoop]; rw [hs]; simp [hk]

/-- A get probe that continues for `d` slots and stops at the `d`-th
computes whatever one final step at the stopping slot computes. -/
theorem getLoop_probe {ks : List Slot} {key : List Nat} {n : Nat}
    (hn : n = ks.length) (hpow : ∃ w, n = 2 ^ w) :
    ∀ d i fuel, i < n → d < fuel →
      (∀ t, t < d → getCont key (ks.getD ((i + t) % n) .empty) = true) →
      getCont key (ks.getD ((i + d) % n) .empty) = false →
      getLoop ks key i fuel = getLoop ks key ((i + d) % n) 1 := by
  intro d
  induction d with
  | zero =>
    intro i fuel hi hf hcont hstop
    obtain ⟨f, rfl⟩ : ∃ f, fuel = f + 1 := ⟨fuel - 1, by omega⟩
    have hij : (i + 0) % n = i := by rw [Nat.add_zero, Nat.mod_eq_of_lt hi]
    rw [hij] at hstop ⊢
    cases hs : ks.getD i .empty with
    | empty => simp only [getLoop]; rw [hs]
    | tomb => rw [hs] at hstop; simp [getCont] at hstop
    | occ k v' =>
      rw [hs] at hstop
      have hk : k = key := by simpa [getCont] using hstop
      simp only [getLoop]; rw [hs]; simp [hk]
  | succ d ih =>
    intro i fuel hi hf hcont hstop
    obtain ⟨f, rfl⟩ : ∃ f, fuel = f + 1 := ⟨fuel - 1, by omega⟩
    have hn0 : 0 < n := by omega
    have h0 := hcont 0 (by omega)
    have hij : (i + 0) % n = i := by rw [Nat.add_zero, Nat.mod_eq_of_lt hi]
    rw [hij] at h0
    have hstep : (i + 1) &&& (ks.length - 1) = (i + 1) % n := by
      rw [← hn]; exact step_mask hpow i
    have hi' : (i + 1) % n < n := Nat.mod_lt _ hn0
    have hrest : ∀ t, t < d → getCont key (ks.getD (((i + 1) % n + t) % n) .empty) = true := by
      intro t ht
      rw [probe_shift]
      exact hcont (t + 1) (by omega)
    have hstop' : getCont key (ks.getD (((i + 1) % n + d) % n) .empty) = false := by
      rw [probe_shift]
      exact hstop
    have hrec := ih ((i + 1) % n) f hi' (by omega) hrest hstop'
    rw [probe_shift] at hrec
    cases hs : ks.getD i .empty with
    | empty => rw [hs] at h0; simp [getCont] at h0
    | tomb =>
      rw [← hrec, ← hstep]
      simp only [getLoop]; rw [hs]
    | occ k v' =>
      rw [hs] at h0
      have hk : ¬ k = key := by simpa [getCont] using h0
      rw [← hrec, ← hstep]
      simp only [getLoop]; rw [hs]; simp [hk]

/-- A remove probe that continues for `d` slots and stops at the `d`-th
computes whatever one final step at the stopping slot computes. -/
theorem removeLoop_probe {m : MapS} {key : List Nat} {n : Nat}
    (hn : n = m.keys.length) (hpow : ∃ w, n = 2 ^ w) :
    ∀ d i fuel, i < n → d < fuel →
      (∀ t, t < d → getCont key (m.keys.getD ((i + t) % n) .empty) = true) →
      getCont key (m.keys.getD ((i + d) % n) .empty) = false →
      removeLoop m key i fuel = removeLoop m key ((i + d) % n) 1 := by
  intro d
  induction d with
  | zero =>
    intro i fuel hi hf hcont hstop
    obtain ⟨f, rfl⟩ : ∃ f, fuel = f + 1 := ⟨fuel - 1, by omega⟩
    have hij : (i + 0) % n = i := by rw [Nat.add_zero, Nat.mod_eq_of_lt hi]
    rw [hij] at hstop ⊢
    cases hs : m.keys.getD i .empty with
    | empty => simp only [removeLoop]; rw [hs]
    | tomb => rw [hs] at hstop; simp [getCont] at hstop
    | occ k v' =>
      rw [hs] at hstop
      have hk : k = key := by simpa [getCont] using hstop
      simp only [removeLoop]; rw [hs]; simp [hk]
  | succ d ih =>
    intro i fuel hi hf hcont hstop
    obtain ⟨f, rfl⟩ : ∃ f, fuel = f + 1 := ⟨fuel - 1, by omega⟩
    have hn0 : 0 < n := by omega
    have h0 := hcont 0 (by omega)
    have hij : (i + 0) % n = i := by rw [Nat.add_zero, Nat.mod_eq_of_lt hi]
    rw [hij] at h0
    have hstep : (i + 1) &&& (m.keys.length - 1) = (i + 1) % n := by
      rw [← hn]; exact step_mask hpow i
    have hi' : (i + 1) % n < n := Nat.mod_lt _ hn0
    have hrest : ∀ t, t < d → getCont key (m.keys.getD (((i + 1) % n + t) % n) .empty) = true := by
      intro t ht
      rw [probe_shift]
      exact hcont (t + 1) (by omega)
    have hstop' : getCont key (m.keys.getD (((i + 1) % n + d) % n) .empty) = false := by
      rw [probe_shift]
      exact hstop
    have hrec := ih ((i + 1) % n) f hi' (by omega) hrest hstop'
    rw [probe_shift] at hrec
    cases hs : m.keys.getD i .empty with
    | empty => rw [hs] at h0; simp [getCont] at h0
    | tomb =>
      rw [← hrec, ← hstep]
      simp only [removeLoop]; rw [hs]
    | occ k v' =>
      rw [hs] at h0
      have hk : ¬ k = key := by simpa [getCont] using h0
      rw [← hrec, ← hstep]
      simp only [removeLoop]; rw [hs]; simp [hk]

/-- A rehash insertion probe that passes `d` non-`NULL` slots and hits a
`NULL` slot at step `d` writes the pair into that slot. -/
theorem rehashIns_probe {ks : List Slot} {k : List Nat} {v : Nat} {n : Nat}
    (hn : n = ks.length) (hpow : ∃ w, n = 2 ^ w) :
    ∀ d i fuel, i < n → d < fuel →
      (∀ t, t < d → rehCont (ks.getD ((i + t) % n) .empty) = true) →
      ks.getD ((i + d) % n) .empty = .empty →
      rehashIns ks k v i fuel = ks.set ((i + d) % n) (.occ k v) := by
  intro d
  induction d with
  | zero =>
    intro i fuel hi hf hcont hstop
    obtain ⟨f, rfl⟩ : ∃ f, fuel = f + 1 := ⟨fuel - 1, by omega⟩
    have hij : (i + 0) % n = i := by rw [Nat.add_zero, Nat.mod_eq_of_lt hi]
    rw [hij] at hstop ⊢
    simp only [rehashIns]; rw [hstop]
  | succ d ih =>
    intro i fuel hi hf hcont hstop
    obtain ⟨f, rfl⟩ : ∃ f, fuel = f + 1 := ⟨fuel - 1, by omega⟩
    have hn0 : 0 < n := by omega
    have h0 := hcont 0 (by omega)
    have hij : (i + 0) % n = i := by rw [Nat.add_zero, Nat.mod_eq_of_lt hi]
    rw [hij] at h0
    have hstep : (i + 1) &&& (ks.length - 1) = (i + 1) % n := by
      rw [← hn]; exact step_mask hpow i
    have hi' : (i + 1) % n < n := Nat.mod_lt _ hn0
    have hrest : ∀ t, t < d → rehCont (ks.getD (((i + 1) % n + t) % n) .empty) = true := by
      intro t ht
      rw [probe_shift]
      exact hcont (t + 1) (by omega)
    have hstop' : ks.getD (((i + 1) % n + d) % n) .empty = .empty := by
      rw [probe_shift]
      exact hstop
    have hrec := ih ((i + 1) % n) f hi' (by omega) hrest hstop'
    rw [probe_shift] at hrec
    cases hs : ks.getD i .empty with
    | empty => rw [hs] at h0; simp [rehCont] at h0
    | tomb =>
      rw [← hrec, ← hstep]
      simp only [rehashIns]; rw [hs]
    | occ k' v' =>
      rw [← hrec, ← hstep]
      simp only [rehashIns]; rw [hs]

/-- The get and remove probes traverse slots identically, so wherever
the get probe reports a miss the remove probe changes nothing. -/
theorem removeLoop_of_getLoop_none {m : MapS} {key : List Nat} :
    ∀ fuel i, getLoop m.keys key i fuel = none → removeLoop m key i fuel = m := by
  intro fuel
  induction fuel with
  | zero => intro i _; rfl
  | succ f ih =>
    intro i hget
    rw [getLoop] at hget
    rw [removeLoop]
    cases hs : m.keys.getD i .empty with
    | empty => rfl
    | tomb =>
      try rw [hs] at hget
      exact ih _ hget
    | occ k v' =>
      try rw [hs] at hget
      by_cases hk : k = key
      · simp [hk] at hget
      · simp only [if_neg hk] at hget
        show (if k = key then _ else removeLoop m key ((i+1) &&& (m.keys.length - 1)) f) = m
        rw [if_neg hk]
        exact ih _ hget

/-- A slot that is not "used" (occupied or tombstone) is `NULL`. -/
theorem slot_empty_of_not_used {s : Slot} :
    (match s with | .empty => false | _ => true) = false → s = .empty := by
  cases s <;> simp

/-- Unfolding `rehCont = false`. -/
theorem rehCont_false_iff {s : Slot} : rehCont s = false ↔ s = .empty := by
  cases s <;> simp [rehCont]

/-- Unfolding `getCont = false`. -/
theorem getCont_false_cases {key : List Nat} {s : Slot} (h : getCont key s = false) :
    s = .empty ∨ ∃ v, s = .occ key v := by
  cases s with
  | empty => exact Or.inl rfl
  | tomb => simp [getCont] at h
  | occ k v =>
    right
    refine ⟨v, ?_⟩
    have : k = key := by simpa [getCont] using h
    rw [this]

/-- Unfolding `putCont = false`. -/
theorem putCont_false_cases {key : List Nat} {s : Slot} (h : putCont key s = false) :
    s = .empty ∨ s = .tomb ∨ ∃ v, s = .occ key v := by
  cases s with
  | empty => exact Or.inl rfl
  | tomb => exact Or.inr (Or.inl rfl)
  | occ k v =>
    right; right
    refine ⟨v, ?_⟩
    have : k = key := by simpa [putCont] using h
    rw [this]

/-- A slot read inside bounds is a member of the array. -/
theorem getD_mem {ks : List Slot} {j : Nat} (hj : j < ks.length) :
    ks.getD j .empty ∈ ks := by
  rw [List.getD_eq_getElem?_getD, List.getElem?_eq_getElem hj]
  simp only [Option.getD_some]
  exact List.getElem_mem hj

/-- "Used" slots split into occupied and tombstone slots. -/
theorem countUsed_eq {ks : List Slot} : countUsed ks = countOcc ks + countTomb ks := by
  induction ks with
  | nil => rfl
  | cons a l ih =>
    unfold countUsed countOcc countTomb at *
    rw [List.countP_cons, List.countP_cons, List.countP_cons]
    cases a <;> simp [ih] <;> omega

/-- No slot of a freshly `calloc`ed array satisfies any predicate that
rejects `NULL`. -/
theorem countP_replicate_empty {p : Slot → Bool} (h : p .empty = false) (n : Nat) :
    (List.replicate n Slot.empty).countP p = 0 := by
  apply List.countP_eq_zero.mpr
  intro a ha
  rw [List.eq_of_mem_replicate ha]
  simp [h]

/-- The reachability invariant every table built through the map API
satisfies: the capacity is a power of two of at least 16 slots, the two
counters really count the occupied and the used slots, and the used
count can exceed the 0.7 rehash threshold by at most the single slot
the last insertion consumed. -/
structure Inv2 (m : MapS) : Prop where
  sizePow : ∃ w, m.keys.length = 2 ^ w ∧ 4 ≤ w
  nelemEq : m.nelem = countOcc m.keys
  nusedEq : m.nused = countUsed m.keys
  bound : 10 * m.nused ≤ 7 * m.keys.length + 10

/-- A power-of-two capacity with exponent at least 4 is at least 16. -/
theorem len_ge_sixteen {m : MapS} (h : Inv2 m) : 16 ≤ m.keys.length := by
  obtain ⟨w, hw, hw4⟩ := h.sizePow
  rw [hw]
  calc (16 : Nat) = 2 ^ 4 := by norm_num
    _ ≤ 2 ^ w := Nat.pow_le_pow_right (by norm_num) hw4

/-- A fresh table satisfies the invariant. -/
theorem inv2_make_map : Inv2 make_map := by
  refine ⟨⟨4, by simp [make_map, do_make_map], by norm_num⟩, ?_, ?_, ?_⟩ <;>
    simp [make_map, do_make_map, countOcc, countUsed, countP_replicate_empty]

/-- The rehash reinsertion fold: starting from a tombstone-free array
with room for every remaining occupied pair, it stays tombstone-free,
keeps its length, and ends holding exactly the occupied pairs moved
into it. -/
theorem rehash_fold_counts {N C : Nat} (hpow : ∃ w, N = 2 ^ w) (hCN : C < N) :
    ∀ (l : List Slot) (acc : List Slot), acc.length = N → countTomb acc = 0 →
      countOcc acc + countOcc l ≤ C →
      let acc' := l.foldl (fun acc s =>
        match s with
        | .occ k v => rehashIns acc k v (hashB k &&& (N - 1)) N
        | _ => acc) acc
      acc'.length = N ∧ countTomb acc' = 0 ∧ countOcc acc' = countOcc acc + countOcc l := by
  intro l
  induction l with
  | nil =>
    intro acc hlen htomb hcap
    refine ⟨hlen, htomb, ?_⟩
    unfold countOcc
    simp
  | cons s l' ih =>
    intro acc hlen htomb hcap
    cases s with
    | empty =>
      have hocc : countOcc (Slot.empty :: l') = countOcc l' := by
        unfold countOcc; rw [List.countP_cons]; simp
      rw [hocc] at hcap
      simpa [hocc] using ih acc hlen htomb hcap
    | tomb =>
      have hocc : countOcc (Slot.tomb :: l') = countOcc l' := by
        unfold countOcc; rw [List.countP_cons]; simp
      rw [hocc] at hcap
      simpa [hocc] using ih acc hlen htomb hcap
    | occ k v =>
      have hocc : countOcc (Slot.occ k v :: l') = countOcc l' + 1 := by
        unfold countOcc; rw [List.countP_cons]; simp
      rw [hocc] at hcap
      have hN0 : 0 < N := by omega
      have hj0 : hashB k &&& (N - 1) < N := and_mask_lt hN0 _
      -- an empty slot exists in acc
      have hused : countUsed acc < acc.length := by
        rw [countUsed_eq, htomb, hlen]; omega
      obtain ⟨j, hjlen, hjp⟩ := exists_slot_not_of_countP_lt hused
      have hjempty : acc.getD j .empty = .empty := slot_empty_of_not_used hjp
      have hjN : j < N := hlen ▸ hjlen
      -- first empty slot on the probe path
      obtain ⟨d, hdN, hdstop, hdcont⟩ :=
        exists_first_stop (P := fun s => rehCont s = false) hlen.symm hj0 hjN
          (by rw [hjempty]; rfl)
      have hins := rehashIns_probe (k := k) (v := v) hlen.symm hpow d (hashB k &&& (N - 1)) N
        hj0 hdN (fun t ht => by
          have := hdcont t ht
          simpa using this) (rehCont_false_iff.mp hdstop)
      rw [List.foldl_cons]
      have heq : (match Slot.occ k v with
        | .occ k v => rehashIns acc k v (hashB k &&& (N - 1)) N
        | _ => acc) = acc.set (((hashB k &&& (N - 1)) + d) % N) (.occ k v) := hins
      rw [heq]
      set e := ((hashB k &&& (N - 1)) + d) % N with he
      have heN : e < N := Nat.mod_lt _ hN0
      have helen : e < acc.length := hlen ▸ heN
      have hsetlen : (acc.set e (.occ k v)).length = N := by rw [List.length_set, hlen]
      have hempty_e : acc.getD e .empty = .empty := rehCont_false_iff.mp hdstop
      have hsetocc : countOcc (acc.set e (.occ k v)) = countOcc acc + 1 := by
        have := countP_set (fun s => match s with | .occ _ _ => true | _ => false) acc e (.occ k v) helen
        rw [hempty_e] at this
        unfold countOcc
        simpa using this
      have hsettomb : countTomb (acc.set e (.occ k v)) = 0 := by
        have := countP_set (fun s => match s with | .tomb => true | _ => false) acc e (.occ k v) helen
        rw [hempty_e] at this
        unfold countTomb at htomb ⊢
        simp at this
        omega
      have := ih (acc.set e (.occ k v)) hsetlen hsettomb (by rw [hsetocc]; omega)
      refine ⟨this.1, this.2.1, ?_⟩
      rw [this.2.2, hsetocc, hocc]
      omega

/-- A fresh array has no occupied slots. -/
theorem countOcc_replicate (n : Nat) : countOcc (List.replicate n Slot.empty) = 0 :=
  countP_replicate_empty (p := fun s => match s with | .occ _ _ => true | _ => false) rfl n

/-- A fresh array has no tombstones. -/
theorem countTomb_replicate (n : Nat) : countTomb (List.replicate n Slot.empty) = 0 :=
  countP_replicate_empty (p := fun s => match s with | .tomb => true | _ => false) rfl n

/-- Count facts about the rehashed table: same occupied count, no
tombstones, the requested capacity, `nelem` kept and `nused` reset to
`nelem`. -/
theorem rehashed_counts {m : MapS} {N : Nat} (hpow : ∃ w, N = 2 ^ w)
    (hlt : countOcc m.keys < N) :
    (rehashed m N).keys.length = N ∧ countTomb (rehashed m N).keys = 0 ∧
      countOcc (rehashed m N).keys = countOcc m.keys ∧
      (rehashed m N).nelem = m.nelem ∧ (rehashed m N).nused = m.nelem := by
  have hfold := rehash_fold_counts (N := N) (C := countOcc m.keys) hpow hlt
    m.keys (List.replicate N .empty)
    (by simp) (countTomb_replicate N)
    (by rw [countOcc_replicate]; omega)
  obtain ⟨hlen, htomb, hocc⟩ := hfold
  rw [countOcc_replicate] at hocc
  exact ⟨hlen, htomb, by simpa using hocc, rfl, rfl⟩

/-- What `maybe_rehash` guarantees on an invariant-satisfying table: the
invariant again, plus enough headroom that even after the coming
insertion consumes one more slot the bound still holds. -/
theorem maybe_rehash_spec {m : MapS} (h : Inv2 m) :
    Inv2 (maybe_rehash m) ∧
      10 * ((maybe_rehash m).nused + 1) ≤ 7 * (maybe_rehash m).keys.length + 10 := by
  have h16 := len_ge_sixteen h
  unfold maybe_rehash
  rw [if_neg (by omega)]
  by_cases hchk : 10 * m.nused < 7 * m.keys.length
  · rw [if_pos hchk]
    exact ⟨h, by omega⟩
  · rw [if_neg hchk]
    obtain ⟨w, hw, hw4⟩ := h.sizePow
    have hnelem_le : m.nelem ≤ m.nused := by
      rw [h.nelemEq, h.nusedEq, countUsed_eq]; omega
    have hnused_le : m.nused ≤ m.keys.length := by
      rw [h.nusedEq]
      unfold countUsed
      exact List.countP_le_length _
    by_cases hsm : 20 * m.nelem < 7 * m.keys.length
    · rw [if_pos hsm]
      obtain ⟨hlen, htomb, hocc, hne, hnu⟩ :=
        rehashed_counts (m := m) (N := m.keys.length) ⟨w, hw⟩ (by rw [← h.nelemEq]; omega)
      constructor
      · refine ⟨⟨w, by rw [hlen, hw], hw4⟩, ?_, ?_, ?_⟩
        · rw [hne, hocc, h.nelemEq]
        · rw [hnu, countUsed_eq, htomb, hocc, h.nelemEq]; omega
        · rw [hnu, hlen]; omega
      · rw [hnu, hlen]; omega
    · rw [if_neg hsm]
      obtain ⟨hlen, htomb, hocc, hne, hnu⟩ :=
        rehashed_counts (m := m) (N := 2 * m.keys.length)
          ⟨w + 1, by rw [hw, pow_succ]; ring⟩ (by rw [← h.nelemEq]; omega)
      constructor
      · refine ⟨⟨w + 1, by rw [hlen, hw, pow_succ]; ring, by omega⟩, ?_, ?_, ?_⟩
        · rw [hne, hocc, h.nelemEq]
        · rw [hnu, countUsed_eq, htomb, hocc, h.nelemEq]; omega
        · rw [hnu, hlen]; omega
      · rw [hnu, hlen]; omega

/-- `map_put` preserves the reachability invariant. -/
theorem inv2_put {m : MapS} (h : Inv2 m) (key : List Nat) (v : Nat) :
    Inv2 (map_put m key v) := by
  obtain ⟨h1, hc⟩ := maybe_rehash_spec h
  unfold map_put
  set m1 := maybe_rehash m with hm1
  set n := m1.keys.length with hn
  have h16 := len_ge_sixteen h1
  have hn0 : 0 < n := by omega
  have hused : countUsed m1.keys < n := by
    have := h1.nusedEq
    omega
  obtain ⟨j, hjlen, hjp⟩ := exists_slot_not_of_countP_lt (show countUsed m1.keys < m1.keys.length by omega)
  have hjempty : m1.keys.getD j .empty = .empty := slot_empty_of_not_used hjp
  have hj0 : hashB key &&& (n - 1) < n := and_mask_lt hn0 _
  obtain ⟨w, hw, hw4⟩ := h1.sizePow
  obtain ⟨d, hdN, hdstop, hdcont⟩ :=
    exists_first_stop (P := fun s => putCont key s = false) (j := j) hn hj0 (by omega)
      (by rw [hjempty]; rfl)
  have hprobe := @putLoop_probe m1 key v n hn
    ⟨w, by rw [hn]; exact hw⟩ d (hashB key &&& (n - 1)) n hj0 hdN
    (fun t ht => eq_true_of_ne_false (hdcont t ht)) hdstop
  rw [hprobe]
  set e := ((hashB key &&& (n - 1)) + d) % n with he
  have heN : e < n := Nat.mod_lt _ hn0
  have helen : e < m1.keys.length := by omega
  have hlenset : ∀ x : Slot, (m1.keys.set e x).length = m1.keys.length := fun x => List.length_set ..
  rcases putCont_false_cases hdstop with hse | hse | ⟨v', hse⟩
  · -- NULL slot: fresh insertion
    have hocc := countP_set (fun s => match s with | .occ _ _ => true | _ => false) m1.keys e (.occ key v) helen
    have husedc := countP_set (fun s => match s with | .empty => false | _ => true) m1.keys e (.occ key v) helen
    rw [hse] at hocc husedc
    simp only [putLoop]
    rw [hse]
    refine ⟨⟨w, ?_, hw4⟩, ?_, ?_, ?_⟩
    · show (m1.keys.set e (.occ key v)).length = 2 ^ w
      rw [hlenset]; exact hw
    · show m1.nelem + 1 = countOcc (m1.keys.set e (.occ key v))
      rw [h1.nelemEq]
      unfold countOcc
      simp at hocc
      omega
    · show m1.nused + 1 = countUsed (m1.keys.set e (.occ key v))
      rw [h1.nusedEq]
      unfold countUsed
      simp at husedc
      omega
    · show 10 * (m1.nused + 1) ≤ 7 * (m1.keys.set e (.occ key v)).length + 10
      rw [hlenset]
      exact hc
  · -- TOMBSTONE slot: reuse
    have hocc := countP_set (fun s => match s with | .occ _ _ => true | _ => false) m1.keys e (.occ key v) helen
    have husedc := countP_set (fun s => match s with | .empty => false | _ => true) m1.keys e (.occ key v) helen
    rw [hse] at hocc husedc
    simp only [putLoop]
    rw [hse]
    refine ⟨⟨w, ?_, hw4⟩, ?_, ?_, ?_⟩
    · show (m1.keys.set e (.occ key v)).length = 2 ^ w
      rw [hlenset]; exact hw
    · show m1.nelem + 1 = countOcc (m1.keys.set e (.occ key v))
      rw [h1.nelemEq]
      unfold countOcc
      simp at hocc
      omega
    · show m1.nused = countUsed (m1.keys.set e (.occ key v))
      rw [h1.nusedEq]
      unfold countUsed
      simp at husedc
      omega
    · show 10 * m1.nused ≤ 7 * (m1.keys.set e (.occ key v)).length + 10
      rw [hlenset]
      omega
  · -- occupied by the same key: overwrite the value
    have hocc := countP_set (fun s => match s with | .occ _ _ => true | _ => false) m1.keys e (.occ key v) helen
    have husedc := countP_set (fun s => match s with | .empty => false | _ => true) m1.keys e (.occ key v) helen
    rw [hse] at hocc husedc
    simp only [putLoop]
    rw [hse]
    simp only [if_pos rfl]
    refine ⟨⟨w, ?_, hw4⟩, ?_, ?_, ?_⟩
    · show (m1.keys.set e (.occ key v)).length = 2 ^ w
      rw [hlenset]; exact hw
    · show m1.nelem = countOcc (m1.keys.set e (.occ key v))
      rw [h1.nelemEq]
      unfold countOcc
      simp at hocc
      omega
    · show m1.nused = countUsed (m1.keys.set e (.occ key v))
      rw [h1.nusedEq]
      unfold countUsed
      simp at husedc
      omega
    · show 10 * m1.nused ≤ 7 * (m1.keys.set e (.occ key v)).length + 10
      rw [hlenset]
      omega

/-- `map_remove` preserves the reachability invariant. -/
theorem inv2_remove {m : MapS} (h : Inv2 m) (key : List Nat) :
    Inv2 (map_remove m key) := by
  unfold map_remove
  split
  · exact h
  · set n := m.keys.length with hn
    have h16 := len_ge_sixteen h
    have hn0 : 0 < n := by omega
    have hused : countUsed m.keys < n := by
      have h1 := h.nusedEq
      have h2 := h.bound
      omega
    obtain ⟨j, hjlen, hjp⟩ := exists_slot_not_of_countP_lt (show countUsed m.keys < m.keys.length by omega)
    have hjempty : m.keys.getD j .empty = .empty := slot_empty_of_not_used hjp
    have hj0 : hashB key &&& (n - 1) < n := and_mask_lt hn0 _
    obtain ⟨w, hw, hw4⟩ := h.sizePow
    obtain ⟨d, hdN, hdstop, hdcont⟩ :=
      exists_first_stop (P := fun s => getCont key s = false) (j := j) hn hj0 (by omega)
        (by rw [hjempty]; rfl)
    have hprobe := @removeLoop_probe m key n hn
      ⟨w, by rw [hn]; exact hw⟩ d (hashB key &&& (n - 1)) n hj0 hdN
      (fun t ht => eq_true_of_ne_false (hdcont t ht)) hdstop
    rw [hprobe]
    set e := ((hashB key &&& (n - 1)) + d) % n with he
    have heN : e < n := Nat.mod_lt _ hn0
    have helen : e < m.keys.length := by omega
    have hlenset : (m.keys.set e .tomb).length = m.keys.length := List.length_set ..
    rcases getCont_false_cases hdstop with hse | ⟨v', hse⟩
    · simp only [removeLoop]
      rw [hse]
      exact h
    · have hocc := countP_set (fun s => match s with | .occ _ _ => true | _ => false) m.keys e .tomb helen
      have husedc := countP_set (fun s => match s with | .empty => false | _ => true) m.keys e .tomb helen
      rw [hse] at hocc husedc
      have hocc_pos : 0 < countOcc m.keys := by
        apply List.countP_pos_iff.mpr
        exact ⟨_, getD_mem helen, by rw [hse]⟩
      simp only [removeLoop]
      rw [hse]
      simp only [if_pos rfl]
      refine ⟨⟨w, ?_, hw4⟩, ?_, ?_, ?_⟩
      · show (m.keys.set e .tomb).length = 2 ^ w
        rw [hlenset]; exact hw
      · show m.nelem - 1 = countOcc (m.keys.set e .tomb)
        rw [h.nelemEq]
        unfold countOcc at hocc_pos ⊢
        simp at hocc
        omega
      · show m.nused = countUsed (m.keys.set e .tomb)
        rw [h.nusedEq]
        unfold countUsed
        simp at husedc
        omega
      · show 10 * m.nused ≤ 7 * (m.keys.set e .tomb).length + 10
        rw [hlenset]
        exact h.bound

/-- Every table reachable from `make_map` satisfies the invariant. -/
theorem inv2_runOps (ops : List Op) : Inv2 (runOps ops make_map) := by
  suffices h : ∀ m, Inv2 m → Inv2 (runOps ops m) from h make_map inv2_make_map
  induction ops with
  | nil => intro m hm; exact hm
  | cons op rest ih =>
    intro m hm
    cases op with
    | put k v => exact ih _ (inv2_put hm k v)
    | del k => exact ih _ (inv2_remove hm k)

/-- C2 (amended): for every sequence of put/remove operations on a fresh
table, the number of occupied-plus-tombstone slots never exceeds the 0.7
threshold by more than the one slot the latest insertion consumed:
`(occupied + tombstone) / capacity ≤ 0.7 + 1/capacity`.  (The check runs
before the insertion, so the factor can end up above 0.7, as the
counterexample shows, but never above `0.7 + 1/capacity`.) -/
theorem load_factor_bounded (ops : List Op) :
    10 * countUsed (runOps ops make_map).keys ≤
      7 * (runOps ops make_map).keys.length + 10 := by
  have h := inv2_runOps ops
  have h1 := h.nusedEq
  have h2 := h.bound
  omega

/-- C10: removing a key that is not bound in the table (and the table
has a `NULL` slot, as every table reachable through the API does, or has
never allocated storage) leaves the table completely unchanged — counts,
capacity, and every slot. -/
theorem map_remove_absent_is_id (m : MapS) (key : List Nat)
    (hget : map_get_nostack m key = none)
    (hspace : m.keys.length = 0 ∨ ∃ j, j < m.keys.length ∧ m.keys.getD j .empty = .empty) :
    map_remove m key = m := by
  unfold map_remove
  split
  · rfl
  · rename_i hlen
    unfold map_get_nostack at hget
    rw [if_neg hlen] at hget
    exact removeLoop_of_getLoop_none _ _ hget

/-- Witness for C10 at a concrete input: a table holding only "a", the
unbound key "b", and the `NULL` slot 0. -/
theorem map_remove_absent_is_id_witness :
    map_get_nostack (runOps [.put [97] 5] make_map) [98] = none ∧
      map_remove (runOps [.put [97] 5] make_map) [98] = runOps [.put [97] 5] make_map :=
  ⟨by decide,
   map_remove_absent_is_id _ _ (by decide) (Or.inr ⟨0, by decide, by decide⟩)⟩

/-- `occPairs` on a raw slot array. -/
def occPairsL (ks : List Slot) : List (List Nat × Nat) :=
  ks.filterMap fun s => match s with | .occ k v => some (k, v) | _ => none

/-- `liveKeys` on a raw slot array. -/
def liveKeysL (ks : List Slot) : List (List Nat) :=
  ks.filterMap fun s => match s with | .occ k _ => some k | _ => none

theorem occPairs_eq (m : MapS) : occPairs m = occPairsL m.keys := rfl

theorem liveKeys_eq (m : MapS) : liveKeys m = liveKeysL m.keys := rfl

/-- The live keys are the first components of the occupied pairs. -/
theorem liveKeysL_eq_map_fst (ks : List Slot) :
    liveKeysL ks = (occPairsL ks).map Prod.fst := by
  induction ks with
  | nil => rfl
  | cons a l ih =>
    cases a <;> simp [liveKeysL, occPairsL, List.filterMap_cons] at ih ⊢ <;> exact ih

/-- Replacing a `NULL` slot by an occupied one adds exactly that pair
(up to order). -/
theorem occPairsL_set_empty_perm :
    ∀ (ks : List Slot) (e : Nat) (k : List Nat) (v : Nat), e < ks.length →
      ks.getD e .empty = .empty →
      (occPairsL (ks.set e (.occ k v))).Perm ((k, v) :: occPairsL ks) := by
  intro ks
  induction ks with
  | nil => intro e k v he; simp at he
  | cons a l ih =>
    intro e k v he hemp
    cases e with
    | zero =>
      simp only [List.getD_cons_zero] at hemp
      subst hemp
      simp [occPairsL, List.filterMap_cons]
    | succ e' =>
      simp only [List.getD_cons_succ] at hemp
      have he' : e' < l.length := by simpa using he
      have hperm := ih e' k v he' hemp
      rw [List.set_cons_succ]
      cases a with
      | empty =>
        simpa [occPairsL, List.filterMap_cons] using hperm
      | tomb =>
        simpa [occPairsL, List.filterMap_cons] using hperm
      | occ k0 v0 =>
        simp only [occPairsL, List.filterMap_cons] at hperm ⊢
        exact ((hperm.cons (k0, v0)).trans (List.Perm.swap _ _ _))

/-- Overwriting the value beside a key leaves the key sequence
unchanged. -/
theorem liveKeysL_set_occ_eq :
    ∀ (ks : List Slot) (e : Nat) (k : List Nat) (v v0 : Nat),
      ks.getD e .empty = .occ k v0 →
      liveKeysL (ks.set e (.occ k v)) = liveKeysL ks := by
  intro ks
  induction ks with
  | nil => intro e k v v0 h; simp [liveKeysL]
  | cons a l ih =>
    intro e k v v0 h
    cases e with
    | zero =>
      simp only [List.getD_cons_zero] at h
      subst h
      simp [liveKeysL, List.filterMap_cons]
    | succ e' =>
      simp only [List.getD_cons_succ] at h
      rw [List.set_cons_succ]
      have hrec := ih e' k v v0 h
      unfold liveKeysL at hrec ⊢
      cases a <;> simp [List.filterMap_cons, hrec]

/-- Reading back an in-range write. -/
theorem getD_set_self {ks : List Slot} {e : Nat} (he : e < ks.length) (x : Slot) :
    (ks.set e x).getD e .empty = x := by
  rw [List.getD_eq_getElem?_getD, List.getElem?_set_self he]
  rfl

/-- Reading any other slot after a write. -/
theorem getD_set_ne {ks : List Slot} {e q : Nat} (h : e ≠ q) (x : Slot) :
    (ks.set e x).getD q .empty = ks.getD q .empty := by
  rw [List.getD_eq_getElem?_getD, List.getD_eq_getElem?_getD, List.getElem?_set_ne h]

/-- A pair is in `occPairsL` exactly when some slot holds it. -/
theorem occPairsL_mem_iff {ks : List Slot} {k : List Nat} {v : Nat} :
    (k, v) ∈ occPairsL ks ↔ ∃ p, p < ks.length ∧ ks.getD p .empty = .occ k v := by
  constructor
  · intro h
    obtain ⟨s, hs, hf⟩ := List.mem_filterMap.mp h
    obtain ⟨p, hp, rfl⟩ := List.mem_iff_getElem.mp hs
    have hseq : ks.getD p .empty = ks[p] := by
      rw [List.getD_eq_getElem?_getD, List.getElem?_eq_getElem hp]
      rfl
    refine ⟨p, hp, ?_⟩
    rw [hseq]
    cases hx : ks[p] with
    | empty => rw [hx] at hf; simp at hf
    | tomb => rw [hx] at hf; simp at hf
    | occ k0 v0 =>
      rw [hx] at hf
      have hf2 : k0 = k ∧ v0 = v := by simpa using hf
      rw [hf2.1, hf2.2]
  · rintro ⟨p, hp, hs⟩
    apply List.mem_filterMap.mpr
    exact ⟨.occ k v, by rw [← hs]; exact getD_mem hp, rfl⟩

/-- A key is live exactly when its key count is positive. -/
theorem mem_liveKeysL_iff {ks : List Slot} {k : List Nat} :
    k ∈ liveKeysL ks ↔ 0 < keyCount ks k := by
  unfold keyCount
  rw [List.countP_pos_iff]
  constructor
  · intro h
    obtain ⟨s, hs, hf⟩ := List.mem_filterMap.mp h
    refine ⟨s, hs, ?_⟩
    cases s with
    | empty => simp at hf
    | tomb => simp at hf
    | occ k0 v0 =>
      have : k0 = k := by simpa using hf
      simp [this]
  · rintro ⟨s, hs, hp⟩
    apply List.mem_filterMap.mpr
    refine ⟨s, hs, ?_⟩
    cases s with
    | empty => simp at hp
    | tomb => simp at hp
    | occ k0 v0 =>
      have : k0 = k := by simpa using hp
      simp [this]

/-- Duplicate-free live keys bound every key count by one. -/
theorem keyCount_le_one_of_nodup :
    ∀ {ks : List Slot}, (liveKeysL ks).Nodup → ∀ k, keyCount ks k ≤ 1 := by
  intro ks
  induction ks with
  | nil => intro _ k; simp [keyCount]
  | cons a l ih =>
    intro hnd k
    unfold keyCount
    rw [List.countP_cons]
    cases a with
    | empty =>
      simp only [liveKeysL, List.filterMap_cons] at hnd
      simpa using ih hnd k
    | tomb =>
      simp only [liveKeysL, List.filterMap_cons] at hnd
      simpa using ih hnd k
    | occ k0 v0 =>
      simp only [liveKeysL, List.filterMap_cons] at hnd
      have hnd2 : k0 ∉ liveKeysL l ∧ (liveKeysL l).Nodup := by
        simpa [liveKeysL] using hnd
      by_cases hk : k0 = k
      · subst hk
        have hzero : keyCount l k0 = 0 := by
          have := hnd2.1
          rw [mem_liveKeysL_iff] at this
          omega
        unfold keyCount at hzero
        simp [hzero]
      · have := ih hnd2.2 k
        unfold keyCount at this
        simp only [hk]
        simpa using this

/-- With duplicate-free live keys, the key of an occupied slot pins the
slot: two distinct positions cannot hold the same key. -/
theorem nodup_no_two_slots {ks : List Slot} (hnd : (liveKeysL ks).Nodup)
    {p q : Nat} (hp : p < ks.length) (hq : q < ks.length) (hpq : p ≠ q)
    {k : List Nat} {v v' : Nat}
    (hsp : ks.getD p .empty = .occ k v) (hsq : ks.getD q .empty = .occ k v') : False := by
  have hcount := keyCount_le_one_of_nodup hnd k
  have hpred : ∀ r (vr : Nat), ks.getD r .empty = .occ k vr →
      (fun s => match s with | .occ k' _ => k' = k | _ => false) (ks.getD r .empty) = true := by
    intro r vr hr
    rw [hr]
    simp
  have h2 : 2 ≤ keyCount ks k := by
    unfold keyCount
    rcases Nat.lt_or_ge p q with hlt | hge
    · exact two_le_countP hlt hq (hpred p v hsp) (hpred q v' hsq)
    · have hlt : q < p := by omega
      exact two_le_countP hlt hp (hpred q v' hsq) (hpred p v hsp)
  omega

/-- Distance (in probe steps) from the home slot `h` to slot `p` in a
table of `n` slots. -/
def probeDist (h p n : Nat) : Nat := (p + n - h) % n

/-- Walking `probeDist h p n` steps from `h` lands on `p`. -/
theorem probeDist_spec {h p n : Nat} (hh : h < n) (hp : p < n) :
    (h + probeDist h p n) % n = p := by
  unfold probeDist
  rw [Nat.add_mod_mod]
  have h1 : h + (p + n - h) = p + n := by omega
  rw [h1, Nat.add_mod_right, Nat.mod_eq_of_lt hp]

theorem probeDist_lt {h p n : Nat} (hn : 0 < n) : probeDist h p n < n :=
  Nat.mod_lt _ hn

/-- The distance from `h` to the slot `d < n` steps along is `d`. -/
theorem probeDist_round {h d n : Nat} (hh : h < n) (hd : d < n) :
    probeDist h ((h + d) % n) n = d := by
  unfold probeDist
  have hsplit : (h + d) % n + n - h = (h + d) % n + (n - h) := by omega
  rw [hsplit, Nat.mod_add_mod]
  have h1 : h + d + (n - h) = d + n := by omega
  rw [h1, Nat.add_mod_right, Nat.mod_eq_of_lt hd]

/-- Two probe steps below the cycle length land on distinct slots. -/
theorem probe_pos_injective {h n t1 t2 : Nat} (h1 : t1 < n) (h2 : t2 < n)
    (heq : (h + t1) % n = (h + t2) % n) : t1 = t2 := by
  have hm : t1 % n = t2 % n := Nat.ModEq.add_left_cancel' h heq
  rw [Nat.mod_eq_of_lt h1, Nat.mod_eq_of_lt h2] at hm
  exact hm

/-- The linear-probing reachability property: every occupied slot is
reachable from its key's home slot without crossing a `NULL` slot. -/
def PathOkL (ks : List Slot) : Prop :=
  ∀ p, p < ks.length → ∀ k v, ks.getD p .empty = .occ k v →
    ∀ t, t < probeDist (hashB k % ks.length) p ks.length →
      ks.getD ((hashB k % ks.length + t) % ks.length) .empty ≠ .empty

/-- The stronger invariant of tables reachable through put-only
histories: additionally tombstone-free, duplicate-free, and with every
occupied slot reachable from its key's home slot over non-`NULL` slots
(the linear-probing invariant `map_get` relies on). -/
structure Clean (m : MapS) extends Inv2 m : Prop where
  tombFree : countTomb m.keys = 0
  nodupKeys : (liveKeysL m.keys).Nodup
  pathOk : PathOkL m.keys

/-- In a clean table, the value of every occupied slot is returned by a
single-table lookup of its key. -/
theorem get_nostack_of_slot {m : MapS} (h : Clean m) {p : Nat} {k : List Nat} {v : Nat}
    (hp : p < m.keys.length) (hs : m.keys.getD p .empty = .occ k v) :
    map_get_nostack m k = some v := by
  have h16 := len_ge_sixteen h.toInv2
  obtain ⟨w, hw, hw4⟩ := h.sizePow
  set n := m.keys.length with hn
  have hn0 : 0 < n := by omega
  have hmask : hashB k &&& (n - 1) = hashB k % n := by
    rw [hw]
    exact and_two_pow_sub_one_mod _ _
  set home := hashB k % n with hhome_def
  have hhome : home < n := Nat.mod_lt _ hn0
  set d := probeDist home p n with hd_def
  have hd : d < n := probeDist_lt hn0
  have hspec : (home + d) % n = p := probeDist_spec hhome (by omega)
  have hcont : ∀ t, t < d → getCont k (m.keys.getD ((home + t) % n) .empty) = true := by
    intro t ht
    have hne : m.keys.getD ((home + t) % n) .empty ≠ .empty :=
      h.pathOk p (by omega) k v hs t (by exact ht)
    cases hq : m.keys.getD ((home + t) % n) .empty with
    | empty => exact absurd hq hne
    | tomb => rfl
    | occ k' v2 =>
      simp only [getCont]
      by_cases hk : k' = k
      · exfalso
        subst hk
        have hqp : (home + t) % n ≠ p := by
          rw [← hspec]
          intro hcontra
          have := probe_pos_injective (by omega) hd hcontra
          omega
        exact nodup_no_two_slots h.nodupKeys (Nat.mod_lt _ hn0) (by omega) hqp hq hs
      · simpa using hk
  have hstop : getCont k (m.keys.getD ((home + d) % n) .empty) = false := by
    rw [hspec, hs]
    simp [getCont]
  have hprobe := @getLoop_probe m.keys k n hn
    ⟨w, by rw [hn]; exact hw⟩ d home n hhome (by omega) hcont hstop
  unfold map_get_nostack
  rw [if_neg (by omega)]
  rw [← hn, hmask, hprobe, hspec]
  simp only [getLoop]
  rw [hs]
  simp

/-- In a clean table, looking up a key bound in no slot misses. -/
theorem get_nostack_none_of_absent {m : MapS} (h : Clean m) {k : List Nat}
    (habs : keyCount m.keys k = 0) : map_get_nostack m k = none := by
  have h16 := len_ge_sixteen h.toInv2
  obtain ⟨w, hw, hw4⟩ := h.sizePow
  set n := m.keys.length with hn
  have hn0 : 0 < n := by omega
  have hmask : hashB k &&& (n - 1) = hashB k % n := by
    rw [hw]
    exact and_two_pow_sub_one_mod _ _
  set home := hashB k % n with hhome_def
  have hhome : home < n := Nat.mod_lt _ hn0
  have hused : countUsed m.keys < n := by
    have h1 := h.nusedEq
    have h2 := h.bound
    omega
  obtain ⟨j, hjlen, hjp⟩ := exists_slot_not_of_countP_lt (show countUsed m.keys < m.keys.length by omega)
  have hjempty : m.keys.getD j .empty = .empty := slot_empty_of_not_used hjp
  obtain ⟨d, hdN, hdstop, hdcont⟩ :=
    exists_first_stop (P := fun s => getCont k s = false) (j := j) hn hhome (by omega)
      (by rw [hjempty]; rfl)
  have hprobe := @getLoop_probe m.keys k n hn
    ⟨w, by rw [hn]; exact hw⟩ d home n hhome (by omega)
    (fun t ht => eq_true_of_ne_false (hdcont t ht)) hdstop
  have hstop_empty : m.keys.getD ((home + d) % n) .empty = .empty := by
    rcases getCont_false_cases hdstop with hse | ⟨v', hse⟩
    · exact hse
    · exfalso
      have : 0 < keyCount m.keys k := by
        unfold keyCount
        apply List.countP_pos_iff.mpr
        refine ⟨_, getD_mem (show (home + d) % n < m.keys.length by
          have := Nat.mod_lt (home + d) hn0; omega), by rw [hse]; simp⟩
      omega
  unfold map_get_nostack
  rw [if_neg (by omega)]
  rw [← hn, hmask, hprobe]
  simp only [getLoop]
  rw [hstop_empty]

/-- Every slot of a fresh array reads `NULL`. -/
theorem getD_replicate (N j : Nat) :
    (List.replicate N Slot.empty).getD j .empty = .empty := by
  rw [List.getD_eq_getElem?_getD, List.getElem?_replicate]
  split <;> rfl

/-- A fresh array trivially satisfies the probing invariant. -/
theorem pathOkL_replicate (N : Nat) : PathOkL (List.replicate N Slot.empty) := by
  intro p hp k v hs
  rw [getD_replicate] at hs
  exact absurd hs (by simp)

/-- A fresh array has no live pairs. -/
theorem occPairsL_replicate (N : Nat) : occPairsL (List.replicate N Slot.empty) = [] := by
  apply List.filterMap_eq_nil_iff.mpr
  intro s hs
  rw [List.eq_of_mem_replicate hs]

/-- Writing a pair into the first `NULL` slot of its probe path
preserves the probing invariant. -/
theorem pathOkL_insert {ks : List Slot} {N : Nat} (hlen : ks.length = N)
    (hN0 : 0 < N) (hpath : PathOkL ks) {k : List Nat} {v : Nat} {d : Nat} (hd : d < N)
    (hcont : ∀ t, t < d → ks.getD ((hashB k % N + t) % N) .empty ≠ .empty) :
    PathOkL (ks.set ((hashB k % N + d) % N) (.occ k v)) := by
  set home := hashB k % N with hhome_def
  have hhome : home < N := Nat.mod_lt _ hN0
  set e := (home + d) % N with he_def
  have heN : e < N := Nat.mod_lt _ hN0
  have hlen' : (ks.set e (.occ k v)).length = N := by rw [List.length_set, hlen]
  intro p hp k' v' hs t ht
  rw [hlen'] at hp ht ⊢
  -- a path slot that was non-NULL stays non-NULL, and slot e itself is occupied
  have hkeep : ∀ q, q < N → (ks.getD q .empty ≠ .empty ∨ q = e) →
      (ks.set e (.occ k v)).getD q .empty ≠ .empty := by
    intro q hq hcases
    by_cases hqe : q = e
    · subst hqe
      rw [getD_set_self (by omega)]
      simp
    · rw [getD_set_ne (fun hh => hqe hh.symm)]
      rcases hcases with hne | habs
      · exact hne
      · exact absurd habs hqe
  by_cases hpe : p = e
  · -- the new slot: its key is k and its probe distance is d
    subst hpe
    rw [getD_set_self (by omega)] at hs
    have hkv : k = k' ∧ v = v' := by simpa using hs
    obtain ⟨hk, hv⟩ := hkv
    subst hk
    have hdist : probeDist (hashB k % N) e N = d := by
      rw [← hhome_def, he_def]
      exact probeDist_round hhome hd
    rw [hdist] at ht
    apply hkeep _ (Nat.mod_lt _ hN0)
    by_cases hte : (hashB k % N + t) % N = e
    · exact Or.inr hte
    · left
      exact hcont t ht
  · -- an old slot: its path was non-NULL before the write
    rw [getD_set_ne (fun hh => hpe hh.symm)] at hs
    have hold := hpath p (by omega) k' v' hs t (by rw [hlen]; exact ht)
    rw [hlen] at hold
    apply hkeep _ (Nat.mod_lt _ hN0)
    exact Or.inl hold

/-- The rehash reinsertion fold at the `Clean` level: it also preserves
the probing invariant, duplicate-freedom, and the multiset of pairs. -/
theorem rehash_fold_clean {N : Nat} (hpow : ∃ w, N = 2 ^ w) :
    ∀ (l : List Slot) (acc : List Slot) (C : Nat),
      acc.length = N → countTomb acc = 0 → PathOkL acc →
      (liveKeysL acc ++ liveKeysL l).Nodup →
      countOcc acc + countOcc l ≤ C → C < N →
      ((l.foldl (fun acc s =>
        match s with
        | .occ k v => rehashIns acc k v (hashB k &&& (N - 1)) N
        | _ => acc) acc).length = N ∧
      countTomb (l.foldl (fun acc s =>
        match s with
        | .occ k v => rehashIns acc k v (hashB k &&& (N - 1)) N
        | _ => acc) acc) = 0 ∧
      PathOkL (l.foldl (fun acc s =>
        match s with
        | .occ k v => rehashIns acc k v (hashB k &&& (N - 1)) N
        | _ => acc) acc) ∧
      (occPairsL (l.foldl (fun acc s =>
        match s with
        | .occ k v => rehashIns acc k v (hashB k &&& (N - 1)) N
        | _ => acc) acc)).Perm (occPairsL acc ++ occPairsL l) ∧
      countOcc (l.foldl (fun acc s =>
        match s with
        | .occ k v => rehashIns acc k v (hashB k &&& (N - 1)) N
        | _ => acc) acc) = countOcc acc + countOcc l) := by
  intro l
  induction l with
  | nil =>
    intro acc C hlen htomb hpath hnd hcap hCN
    refine ⟨hlen, htomb, hpath, ?_, ?_⟩
    · simp [occPairsL]
    · unfold countOcc; simp
  | cons s l' ih =>
    intro acc C hlen htomb hpath hnd hcap hCN
    have hN0 : 0 < N := by omega
    cases s with
    | empty =>
      have hocc : countOcc (Slot.empty :: l') = countOcc l' := by
        unfold countOcc; rw [List.countP_cons]; simp
      have hlk : liveKeysL (Slot.empty :: l') = liveKeysL l' := by
        unfold liveKeysL; rw [List.filterMap_cons]
      have hopr : occPairsL (Slot.empty :: l') = occPairsL l' := by
        unfold occPairsL; rw [List.filterMap_cons]
      rw [hocc] at hcap
      rw [hlk] at hnd
      rw [List.foldl_cons]
      have := ih acc C hlen htomb hpath hnd hcap hCN
      simpa [hopr, hocc] using this
    | tomb =>
      have hocc : countOcc (Slot.tomb :: l') = countOcc l' := by
        unfold countOcc; rw [List.countP_cons]; simp
      have hlk : liveKeysL (Slot.tomb :: l') = liveKeysL l' := by
        unfold liveKeysL; rw [List.filterMap_cons]
      have hopr : occPairsL (Slot.tomb :: l') = occPairsL l' := by
        unfold occPairsL; rw [List.filterMap_cons]
      rw [hocc] at hcap
      rw [hlk] at hnd
      rw [List.foldl_cons]
      have := ih acc C hlen htomb hpath hnd hcap hCN
      simpa [hopr, hocc] using this
    | occ k v =>
      have hocc : countOcc (Slot.occ k v :: l') = countOcc l' + 1 := by
        unfold countOcc; rw [List.countP_cons]; simp
      have hlk : liveKeysL (Slot.occ k v :: l') = k :: liveKeysL l' := by
        unfold liveKeysL; rw [List.filterMap_cons]
      have hopr : occPairsL (Slot.occ k v :: l') = (k, v) :: occPairsL l' := by
        unfold occPairsL; rw [List.filterMap_cons]
      rw [hocc] at hcap
      rw [hlk] at hnd
      -- probe: find the first NULL slot from k's home
      have hj0 : hashB k &&& (N - 1) < N := and_mask_lt hN0 _
      have hused : countUsed acc < acc.length := by
        rw [countUsed_eq, htomb, hlen]; omega
      obtain ⟨j, hjlen, hjp⟩ := exists_slot_not_of_countP_lt hused
      have hjempty : acc.getD j .empty = .empty := slot_empty_of_not_used hjp
      obtain ⟨d, hdN, hdstop, hdcont⟩ :=
        exists_first_stop (P := fun s => rehCont s = false) (j := j) hlen.symm hj0
          (hlen ▸ hjlen) (by rw [hjempty]; rfl)
      have hins := rehashIns_probe (k := k) (v := v) hlen.symm hpow d (hashB k &&& (N - 1)) N
        hj0 hdN (fun t ht => eq_true_of_ne_false (hdcont t ht)) (rehCont_false_iff.mp hdstop)
      rw [List.foldl_cons]
      have heq : (match Slot.occ k v with
        | .occ k v => rehashIns acc k v (hashB k &&& (N - 1)) N
        | _ => acc) = acc.set (((hashB k &&& (N - 1)) + d) % N) (.occ k v) := hins
      rw [heq]
      set e := ((hashB k &&& (N - 1)) + d) % N with he_def
      have heN : e < N := Nat.mod_lt _ hN0
      have helen : e < acc.length := hlen ▸ heN
      have hempty_e : acc.getD e .empty = .empty := rehCont_false_iff.mp hdstop
      set acc1 := acc.set e (.occ k v) with hacc1
      have hlen1 : acc1.length = N := by rw [hacc1, List.length_set, hlen]
      have htomb1 : countTomb acc1 = 0 := by
        rw [hacc1]
        have := countP_set (fun s => match s with | .tomb => true | _ => false) acc e (.occ k v) helen
        rw [hempty_e] at this
        unfold countTomb at htomb ⊢
        simp at this
        omega
      have hocc1 : countOcc acc1 = countOcc acc + 1 := by
        rw [hacc1]
        have := countP_set (fun s => match s with | .occ _ _ => true | _ => false) acc e (.occ k v) helen
        rw [hempty_e] at this
        unfold countOcc
        simp at this
        omega
      have hmaskhome : hashB k &&& (N - 1) = hashB k % N := by
        obtain ⟨w, rfl⟩ := hpow
        exact and_two_pow_sub_one_mod _ _
      have hpath1 : PathOkL acc1 := by
        rw [hacc1]
        have := pathOkL_insert hlen hN0 hpath (k := k) (v := v) hdN
          (fun t ht => by
            have := eq_true_of_ne_false (hdcont t ht)
            rw [hmaskhome] at this
            intro hcontra
            rw [hcontra] at this
            simp [rehCont] at this)
        rw [← hmaskhome] at this
        exact this
      have hpairs1 : (occPairsL acc1).Perm ((k, v) :: occPairsL acc) :=
        occPairsL_set_empty_perm acc e k v helen hempty_e
      have hkeys1 : (liveKeysL acc1).Perm (k :: liveKeysL acc) := by
        have := hpairs1.map Prod.fst
        rw [liveKeysL_eq_map_fst, liveKeysL_eq_map_fst]
        simpa using this
      have hnd1 : (liveKeysL acc1 ++ liveKeysL l').Nodup := by
        have hperm : (liveKeysL acc1 ++ liveKeysL l').Perm
            (liveKeysL acc ++ k :: liveKeysL l') :=
          (hkeys1.append_right (liveKeysL l')).trans
            (@List.perm_middle _ k (liveKeysL acc) (liveKeysL l')).symm
        exact hperm.nodup_iff.mpr hnd
      have := ih acc1 C hlen1 htomb1 hpath1 hnd1 (by rw [hocc1]; omega) hCN
      obtain ⟨r1, r2, r3, r4, r5⟩ := this
      refine ⟨r1, r2, r3, ?_, ?_⟩
      · rw [hopr]
        exact r4.trans ((hpairs1.append_right (occPairsL l')).trans
          (@List.perm_middle _ (k, v) (occPairsL acc) (occPairsL l')).symm)
      · rw [r5, hocc1, hocc]
        omega

/-- A fresh array has no live keys. -/
theorem liveKeysL_replicate (N : Nat) : liveKeysL (List.replicate N Slot.empty) = [] := by
  rw [liveKeysL_eq_map_fst, occPairsL_replicate]
  rfl

/-- The number of live keys is the number of occupied slots. -/
theorem length_liveKeysL (ks : List Slot) : (liveKeysL ks).length = countOcc ks := by
  induction ks with
  | nil => rfl
  | cons a l ih =>
    unfold liveKeysL countOcc at ih ⊢
    rw [List.filterMap_cons, List.countP_cons]
    cases a <;> simp [ih]

/-- Overwriting the value beside an existing key keeps the probing
invariant. -/
theorem pathOkL_overwrite {ks : List Slot} {e : Nat} {key : List Nat} {v v' : Nat}
    (he : e < ks.length) (hs : ks.getD e .empty = .occ key v')
    (hp : PathOkL ks) : PathOkL (ks.set e (.occ key v)) := by
  have hlen' : (ks.set e (.occ key v)).length = ks.length := List.length_set ..
  have hkeep : ∀ q, (ks.set e (.occ key v)).getD q .empty = .empty →
      ks.getD q .empty = .empty := by
    intro q hq
    by_cases hqe : q = e
    · subst hqe
      rw [getD_set_self he] at hq
      exact absurd hq (by simp)
    · rw [getD_set_ne (fun hh => hqe hh.symm)] at hq
      exact hq
  intro p hpl k' v'' hs' t ht
  rw [hlen'] at hpl ht ⊢
  intro hcontra
  by_cases hpe : p = e
  · subst hpe
    rw [getD_set_self he] at hs'
    have hk : key = k' := by
      have h2 : key = k' ∧ v = v'' := by simpa using hs'
      exact h2.1
    subst hk
    exact hp p he key v' hs t ht (hkeep _ hcontra)
  · rw [getD_set_ne (fun hh => hpe hh.symm)] at hs'
    exact hp p hpl k' v'' hs' t ht (hkeep _ hcontra)

/-- What `maybe_rehash` guarantees on a clean table: clean again, the
same pairs (up to order), and insertion headroom. -/
theorem clean_maybe_rehash {m : MapS} (h : Clean m) :
    Clean (maybe_rehash m) ∧
      10 * ((maybe_rehash m).nused + 1) ≤ 7 * (maybe_rehash m).keys.length + 10 ∧
      (occPairsL (maybe_rehash m).keys).Perm (occPairsL m.keys) := by
  have h16 := len_ge_sixteen h.toInv2
  unfold maybe_rehash
  rw [if_neg (by omega)]
  by_cases hchk : 10 * m.nused < 7 * m.keys.length
  · rw [if_pos hchk]
    exact ⟨h, by omega, List.Perm.refl _⟩
  · rw [if_neg hchk]
    obtain ⟨w, hw, hw4⟩ := h.sizePow
    have hnelem_le : m.nelem ≤ m.nused := by
      rw [h.nelemEq, h.nusedEq, countUsed_eq]; omega
    have hnused_le : m.nused ≤ m.keys.length := by
      rw [h.nusedEq]
      unfold countUsed
      exact List.countP_le_length _
    have hmain : ∀ N : Nat, (∃ w', N = 2 ^ w' ∧ 4 ≤ w') → countOcc m.keys < N →
        10 * m.nelem ≤ 7 * N →
        Clean (rehashed m N) ∧ (rehashed m N).nused = m.nelem ∧
          (rehashed m N).keys.length = N ∧
          (occPairsL (rehashed m N).keys).Perm (occPairsL m.keys) := by
      intro N hpow2 hlt hbound
      obtain ⟨w', hw', hw4'⟩ := hpow2
      have hfold := rehash_fold_clean (N := N) ⟨w', hw'⟩ m.keys
        (List.replicate N .empty) (countOcc m.keys)
        (by simp) (countTomb_replicate N) (pathOkL_replicate N)
        (by rw [liveKeysL_replicate]; simpa using h.nodupKeys)
        (by rw [countOcc_replicate]; omega) hlt
      obtain ⟨r1, r2, r3, r4, r5⟩ := hfold
      rw [occPairsL_replicate] at r4
      simp only [List.nil_append] at r4
      rw [countOcc_replicate] at r5
      simp only [Nat.zero_add] at r5
      have R1 : (rehashed m N).keys.length = N := r1
      have R2 : countTomb (rehashed m N).keys = 0 := r2
      have R3 : PathOkL (rehashed m N).keys := r3
      have R4 : (occPairsL (rehashed m N).keys).Perm (occPairsL m.keys) := r4
      have R5 : countOcc (rehashed m N).keys = countOcc m.keys := r5
      have hkeysperm : (liveKeysL (rehashed m N).keys).Perm (liveKeysL m.keys) := by
        rw [liveKeysL_eq_map_fst, liveKeysL_eq_map_fst]
        exact R4.map Prod.fst
      refine ⟨⟨⟨⟨w', ?_, hw4'⟩, ?_, ?_, ?_⟩, R2, ?_, R3⟩, rfl, R1, R4⟩
      · show (rehashed m N).keys.length = 2 ^ w'
        rw [← hw']
        exact R1
      · show (rehashed m N).nelem = countOcc (rehashed m N).keys
        rw [R5]
        exact h.nelemEq
      · show (rehashed m N).nused = countUsed (rehashed m N).keys
        rw [countUsed_eq, R2, R5, show (rehashed m N).nused = m.nelem from rfl, h.nelemEq]
        omega
      · show 10 * (rehashed m N).nused ≤ 7 * (rehashed m N).keys.length + 10
        rw [R1, show (rehashed m N).nused = m.nelem from rfl]
        omega
      · exact hkeysperm.nodup_iff.mpr h.nodupKeys
    by_cases hsm : 20 * m.nelem < 7 * m.keys.length
    · rw [if_pos hsm]
      obtain ⟨hc, hnu, hlen, hperm⟩ := hmain m.keys.length ⟨w, hw, hw4⟩
        (by rw [← h.nelemEq]; omega) (by omega)
      refine ⟨hc, ?_, hperm⟩
      rw [hnu, hlen]
      omega
    · rw [if_neg hsm]
      obtain ⟨hc, hnu, hlen, hperm⟩ := hmain (2 * m.keys.length)
        ⟨w + 1, by rw [hw, pow_succ]; ring, by omega⟩
        (by rw [← h.nelemEq]; omega) (by omega)
      refine ⟨hc, ?_, hperm⟩
      rw [hnu, hlen]
      omega

/-- `map_put` on a clean table: the result is clean, holds the new pair,
and keeps every pair of a different key. -/
theorem clean_put {m : MapS} (h : Clean m) (key : List Nat) (v : Nat) :
    Clean (map_put m key v) ∧
      (key, v) ∈ occPairsL (map_put m key v).keys ∧
      (∀ k0 v0, ¬ k0 = key → (k0, v0) ∈ occPairsL m.keys →
        (k0, v0) ∈ occPairsL (map_put m key v).keys) := by
  obtain ⟨h1, hc, hperm⟩ := clean_maybe_rehash h
  unfold map_put
  set m1 := maybe_rehash m with hm1
  set n := m1.keys.length with hn
  have h16 := len_ge_sixteen h1.toInv2
  have hn0 : 0 < n := by omega
  obtain ⟨w, hw, hw4⟩ := h1.sizePow
  have hmask : hashB key &&& (n - 1) = hashB key % n := by
    rw [hn, hw]
    exact and_two_pow_sub_one_mod _ _
  have hused : countUsed m1.keys < n := by
    have := h1.nusedEq
    omega
  obtain ⟨j, hjlen, hjp⟩ := exists_slot_not_of_countP_lt (show countUsed m1.keys < m1.keys.length by omega)
  have hjempty : m1.keys.getD j .empty = .empty := slot_empty_of_not_used hjp
  have hj0 : hashB key &&& (n - 1) < n := and_mask_lt hn0 _
  obtain ⟨d, hdN, hdstop, hdcont⟩ :=
    exists_first_stop (P := fun s => putCont key s = false) (j := j) hn hj0 (by omega)
      (by rw [hjempty]; rfl)
  have hprobe := @putLoop_probe m1 key v n hn
    ⟨w, by rw [hn]; exact hw⟩ d (hashB key &&& (n - 1)) n hj0 hdN
    (fun t ht => eq_true_of_ne_false (hdcont t ht)) hdstop
  rw [hprobe]
  set e := ((hashB key &&& (n - 1)) + d) % n with he_def
  have heN : e < n := Nat.mod_lt _ hn0
  have helen : e < m1.keys.length := by omega
  have he2 : e = (hashB key % n + d) % n := by rw [he_def, hmask]
  have hlenset : ∀ x : Slot, (m1.keys.set e x).length = m1.keys.length :=
    fun x => List.length_set ..
  -- pairs of other keys survive any write to slot e that does not hold their key
  have hpres : ∀ (x : Slot) (k0 : List Nat) (v0 : Nat), ¬ k0 = key →
      (∀ v2, m1.keys.getD e .empty ≠ .occ k0 v2) →
      (k0, v0) ∈ occPairsL m.keys → (k0, v0) ∈ occPairsL (m1.keys.set e x) := by
    intro x k0 v0 hk0 hne hmem
    have hmem1 : (k0, v0) ∈ occPairsL m1.keys := hperm.mem_iff.mpr hmem
    obtain ⟨q, hq, hsq⟩ := occPairsL_mem_iff.mp hmem1
    have hqe : e ≠ q := by
      intro hh
      exact hne v0 (by rw [hh]; exact hsq)
    apply occPairsL_mem_iff.mpr
    exact ⟨q, by rw [List.length_set]; exact hq, by rw [getD_set_ne hqe]; exact hsq⟩
  -- if the probe stopped at a NULL slot, the key is bound nowhere
  have habsent : m1.keys.getD e .empty = .empty → keyCount m1.keys key = 0 := by
    intro hse
    by_contra habs
    have hpos : 0 < keyCount m1.keys key := Nat.pos_of_ne_zero habs
    unfold keyCount at hpos
    obtain ⟨a, ha, hpa⟩ := List.countP_pos_iff.mp hpos
    obtain ⟨q, hq, rfl⟩ := List.mem_iff_getElem.mp ha
    have hseq : m1.keys.getD q .empty = m1.keys[q] := by
      rw [List.getD_eq_getElem?_getD, List.getElem?_eq_getElem hq]
      rfl
    obtain ⟨vq, hslotq⟩ : ∃ vq, m1.keys.getD q .empty = .occ key vq := by
      rw [hseq]
      cases hx : m1.keys[q] with
      | empty => rw [hx] at hpa; simp at hpa
      | tomb => rw [hx] at hpa; simp at hpa
      | occ kq vq =>
        rw [hx] at hpa
        have : kq = key := by simpa using hpa
        exact ⟨vq, by rw [this]⟩
    set dq := probeDist (hashB key % n) q n with hdq_def
    have hdqN : dq < n := probeDist_lt hn0
    have hspecq : (hashB key % n + dq) % n = q :=
      probeDist_spec (Nat.mod_lt _ hn0) (by omega)
    rcases Nat.lt_trichotomy d dq with hlt | heq | hgt
    · have hne := h1.pathOk q (by omega) key vq hslotq d (by exact hlt)
      apply hne
      rw [show (hashB key % m1.keys.length + d) % m1.keys.length = e by rw [he2]]
      exact hse
    · have heq2 : e = q := by
        rw [he2, heq]
        exact hspecq
      rw [heq2, hslotq] at hse
      exact absurd hse (by simp)
    · have hco := eq_true_of_ne_false (hdcont dq hgt)
      have hpos_q : ((hashB key &&& (n - 1)) + dq) % n = q := by
        rw [hmask]
        exact hspecq
      rw [hpos_q, hslotq] at hco
      simp [putCont] at hco
  rcases putCont_false_cases hdstop with hse | hse | ⟨v', hse⟩
  · -- NULL slot: fresh insertion of an absent key
    have habs := habsent hse
    have hocc := countP_set (fun s => match s with | .occ _ _ => true | _ => false) m1.keys e (.occ key v) helen
    have husedc := countP_set (fun s => match s with | .empty => false | _ => true) m1.keys e (.occ key v) helen
    have htombc := countP_set (fun s => match s with | .tomb => true | _ => false) m1.keys e (.occ key v) helen
    rw [hse] at hocc husedc htombc
    simp only [putLoop]
    rw [hse]
    refine ⟨⟨⟨⟨w, ?_, hw4⟩, ?_, ?_, ?_⟩, ?_, ?_, ?_⟩, ?_, ?_⟩
    · show (m1.keys.set e (.occ key v)).length = 2 ^ w
      rw [hlenset]
      exact hw
    · show m1.nelem + 1 = countOcc (m1.keys.set e (.occ key v))
      rw [h1.nelemEq]
      unfold countOcc
      simp at hocc
      omega
    · show m1.nused + 1 = countUsed (m1.keys.set e (.occ key v))
      rw [h1.nusedEq]
      unfold countUsed
      simp at husedc
      omega
    · show 10 * (m1.nused + 1) ≤ 7 * (m1.keys.set e (.occ key v)).length + 10
      rw [hlenset]
      exact hc
    · show countTomb (m1.keys.set e (.occ key v)) = 0
      have := h1.tombFree
      unfold countTomb at this ⊢
      simp at htombc
      omega
    · show (liveKeysL (m1.keys.set e (.occ key v))).Nodup
      have hpairp := occPairsL_set_empty_perm m1.keys e key v helen hse
      have hkeyp : (liveKeysL (m1.keys.set e (.occ key v))).Perm (key :: liveKeysL m1.keys) := by
        rw [liveKeysL_eq_map_fst, liveKeysL_eq_map_fst (m1.keys)]
        simpa using hpairp.map Prod.fst
      apply hkeyp.nodup_iff.mpr
      apply List.Nodup.cons
      · intro hmem
        rw [mem_liveKeysL_iff] at hmem
        omega
      · exact h1.nodupKeys
    · show PathOkL (m1.keys.set e (.occ key v))
      have hcont2 : ∀ t, t < d → m1.keys.getD ((hashB key % n + t) % n) .empty ≠ .empty := by
        intro t ht
        have hco := eq_true_of_ne_false (hdcont t ht)
        rw [hmask] at hco
        intro hcontra
        rw [hcontra] at hco
        simp [putCont] at hco
      have := @pathOkL_insert m1.keys n hn.symm hn0 h1.pathOk key v d hdN hcont2
      rw [← he2] at this
      exact this
    · show (key, v) ∈ occPairsL (m1.keys.set e (.occ key v))
      apply occPairsL_mem_iff.mpr
      exact ⟨e, by rw [List.length_set]; exact helen, getD_set_self helen _⟩
    · show ∀ k0 v0, ¬ k0 = key → (k0, v0) ∈ occPairsL m.keys →
        (k0, v0) ∈ occPairsL (m1.keys.set e (.occ key v))
      intro k0 v0 hk0 hmem
      exact hpres _ k0 v0 hk0 (fun v2 => by rw [hse]; simp) hmem
  · -- TOMBSTONE slot: impossible, the table is tombstone-free
    exfalso
    have : 0 < countTomb m1.keys := by
      unfold countTomb
      apply List.countP_pos_iff.mpr
      exact ⟨_, getD_mem helen, by rw [hse]⟩
    have := h1.tombFree
    omega
  · -- occupied by the same key: overwrite the value in place
    have hocc := countP_set (fun s => match s with | .occ _ _ => true | _ => false) m1.keys e (.occ key v) helen
    have husedc := countP_set (fun s => match s with | .empty => false | _ => true) m1.keys e (.occ key v) helen
    have htombc := countP_set (fun s => match s with | .tomb => true | _ => false) m1.keys e (.occ key v) helen
    rw [hse] at hocc husedc htombc
    simp only [putLoop]
    rw [hse]
    simp only [if_pos rfl]
    refine ⟨⟨⟨⟨w, ?_, hw4⟩, ?_, ?_, ?_⟩, ?_, ?_, ?_⟩, ?_, ?_⟩
    · show (m1.keys.set e (.occ key v)).length = 2 ^ w
      rw [hlenset]
      exact hw
    · show m1.nelem = countOcc (m1.keys.set e (.occ key v))
      rw [h1.nelemEq]
      unfold countOcc
      simp at hocc
      omega
    · show m1.nused = countUsed (m1.keys.set e (.occ key v))
      rw [h1.nusedEq]
      unfold countUsed
      simp at husedc
      omega
    · show 10 * m1.nused ≤ 7 * (m1.keys.set e (.occ key v)).length + 10
      rw [hlenset]
      omega
    · show countTomb (m1.keys.set e (.occ key v)) = 0
      have := h1.tombFree
      unfold countTomb at this ⊢
      simp at htombc
      omega
    · show (liveKeysL (m1.keys.set e (.occ key v))).Nodup
      rw [liveKeysL_set_occ_eq m1.keys e key v v' hse]
      exact h1.nodupKeys
    · show PathOkL (m1.keys.set e (.occ key v))
      exact pathOkL_overwrite helen hse h1.pathOk
    · show (key, v) ∈ occPairsL (m1.keys.set e (.occ key v))
      apply occPairsL_mem_iff.mpr
      exact ⟨e, by rw [List.length_set]; exact helen, getD_set_self helen _⟩
    · show ∀ k0 v0, ¬ k0 = key → (k0, v0) ∈ occPairsL m.keys →
        (k0, v0) ∈ occPairsL (m1.keys.set e (.occ key v))
      intro k0 v0 hk0 hmem
      refine hpres _ k0 v0 hk0 (fun v2 hcontra => ?_) hmem
      rw [hse] at hcontra
      have : key = k0 := by
        have h2 : key = k0 ∧ v' = v2 := by simpa using hcontra
        exact h2.1
      exact hk0 this.symm

/-- `op` is a `put` of a key other than `key`. -/
def Op.putOther (key : List Nat) : Op → Prop
  | .put k _ => ¬ k = key
  | .del _ => False

instance (key : List Nat) : DecidablePred (Op.putOther key) := fun op => by
  cases op <;> simp [Op.putOther] <;> infer_instance

/-- A fresh table is clean. -/
theorem clean_make_map : Clean make_map := by
  refine ⟨inv2_make_map, ?_, ?_, ?_⟩
  · exact countTomb_replicate 16
  · show (liveKeysL (List.replicate 16 .empty)).Nodup
    rw [liveKeysL_replicate]
    exact List.nodup_nil
  · show PathOkL (List.replicate 16 .empty)
    exact pathOkL_replicate 16

/-- Put-only histories keep a table clean. -/
theorem clean_runOps_puts : ∀ (ops : List Op), (∀ op ∈ ops, op.isPut) →
    ∀ m, Clean m → Clean (runOps ops m) := by
  intro ops
  induction ops with
  | nil => intro _ m hm; exact hm
  | cons op rest ih =>
    intro hput m hm
    cases op with
    | put k v =>
      show Clean (runOps rest (map_put m k v))
      exact ih (fun o ho => hput o (List.mem_cons_of_mem _ ho)) _ (clean_put hm k v).1
    | del k =>
      exact absurd (hput _ (List.mem_cons_self _ _)) (by simp [Op.isPut])

/-- C1 (amended): for put-only operation sequences the keys within one
table are unique — `map_put` always overwrites an existing binding in
place.  (A `map_remove` can leave a tombstone on another key's probe
path, after which a re-insertion of that key creates a second slot; see
the counterexample.) -/
theorem put_only_keys_unique (ops : List Op) (hput : ∀ op ∈ ops, op.isPut) :
    (liveKeys (runOps ops make_map)).Nodup := by
  rw [liveKeys_eq]
  exact (clean_runOps_puts ops hput make_map clean_make_map).nodupKeys

/-- Witness for C1 at a concrete input: three puts, one overwriting. -/
theorem put_only_keys_unique_witness :
    (∀ op ∈ ([.put [97] 1, .put [113] 2, .put [97] 3] : List Op), op.isPut) ∧
      (liveKeys (runOps [.put [97] 1, .put [113] 2, .put [97] 3] make_map)).Nodup :=
  ⟨by decide, put_only_keys_unique _ (by decide)⟩

/-- C3 (amended): for put-only operation sequences, `map_len` equals the
number of distinct keys reachable via a single-table `get`, and
`liveGettable` enumerates exactly those keys.  (With removals, a
tombstone-shadowed re-insertion can duplicate a key and make `map_len`
overcount; see the counterexample.) -/
theorem map_len_counts_gettable (ops : List Op) (hput : ∀ op ∈ ops, op.isPut) :
    map_len (runOps ops make_map) = (liveGettable (runOps ops make_map)).length ∧
      ∀ k, (map_get_nostack (runOps ops make_map) k).isSome = true ↔
        k ∈ liveGettable (runOps ops make_map) := by
  set m := runOps ops make_map with hm
  have hcl : Clean m := clean_runOps_puts ops hput make_map clean_make_map
  have hgett : ∀ k, (map_get_nostack m k).isSome = true ↔ k ∈ liveKeys m := by
    intro k
    constructor
    · intro hs
      obtain ⟨v, hv⟩ := Option.isSome_iff_exists.mp hs
      exact get_nostack_some_live hv
    · intro hmem
      rw [liveKeys_eq, mem_liveKeysL_iff] at hmem
      unfold keyCount at hmem
      obtain ⟨a, ha, hpa⟩ := List.countP_pos_iff.mp hmem
      obtain ⟨q, hq, rfl⟩ := List.mem_iff_getElem.mp ha
      have hseq : m.keys.getD q .empty = m.keys[q] := by
        rw [List.getD_eq_getElem?_getD, List.getElem?_eq_getElem hq]
        rfl
      obtain ⟨vq, hslotq⟩ : ∃ vq, m.keys.getD q .empty = .occ k vq := by
        rw [hseq]
        cases hx : m.keys[q] with
        | empty => rw [hx] at hpa; simp at hpa
        | tomb => rw [hx] at hpa; simp at hpa
        | occ kq vq =>
          rw [hx] at hpa
          have : kq = k := by simpa using hpa
          exact ⟨vq, by rw [this]⟩
      rw [get_nostack_of_slot hcl hq hslotq]
      rfl
  have hdedup : (liveKeys m).dedup = liveKeys m :=
    List.Nodup.dedup (by rw [liveKeys_eq]; exact hcl.nodupKeys)
  have hfilter : liveGettable m = liveKeys m := by
    unfold liveGettable
    rw [hdedup]
    apply List.filter_eq_self.mpr
    intro k hk
    exact (hgett k).mpr hk
  constructor
  · rw [hfilter]
    show m.nelem = (liveKeys m).length
    rw [liveKeys_eq, length_liveKeysL]
    exact hcl.nelemEq
  · intro k
    rw [hfilter]
    exact hgett k

/-- Witness for C3 at a concrete input: two puts of distinct keys. -/
theorem map_len_counts_gettable_witness :
    (∀ op ∈ ([.put [97] 1, .put [113] 2] : List Op), op.isPut) ∧
      map_len (runOps [.put [97] 1, .put [113] 2] make_map) =
        (liveGettable (runOps [.put [97] 1, .put [113] 2] make_map)).length :=
  ⟨by decide, (map_len_counts_gettable _ (by decide)).1⟩

/-- C4 (amended): if `(key, v)` is put after a put-only history and is
followed only by puts of other keys, `map_get` returns `v`.  (If a
removal preceded the put, the key can occupy two slots, and a later
rehash can reorder them so that `get` finds a stale value; see the
counterexample.) -/
theorem round_trip_put_only (ops1 ops2 : List Op) (key : List Nat) (v : Nat)
    (h1 : ∀ op ∈ ops1, op.isPut)
    (h2 : ∀ op ∈ ops2, op.putOther key) :
    map_get [runOps (ops1 ++ Op.put key v :: ops2) make_map] key = some v := by
  have hsingle : ∀ mm : MapS, map_get [mm] key = map_get_nostack mm key := by
    intro mm
    show (match map_get_nostack mm key with
      | some v => some v
      | none => map_get [] key) = map_get_nostack mm key
    cases map_get_nostack mm key <;> rfl
  rw [hsingle]
  have hsplit : runOps (ops1 ++ Op.put key v :: ops2) make_map =
      runOps ops2 (map_put (runOps ops1 make_map) key v) := by
    unfold runOps
    rw [List.foldl_append, List.foldl_cons]
  rw [hsplit]
  have hA : Clean (runOps ops1 make_map) := clean_runOps_puts ops1 h1 make_map clean_make_map
  obtain ⟨hB, hBmem, -⟩ := clean_put hA key v
  suffices hind : ∀ (l : List Op), (∀ op ∈ l, op.putOther key) →
      ∀ mm, Clean mm → (key, v) ∈ occPairsL mm.keys →
      Clean (runOps l mm) ∧ (key, v) ∈ occPairsL (runOps l mm).keys by
    obtain ⟨hclf, hmemf⟩ := hind ops2 h2 _ hB hBmem
    obtain ⟨p, hp, hslot⟩ := occPairsL_mem_iff.mp hmemf
    exact get_nostack_of_slot hclf hp hslot
  intro l
  induction l with
  | nil => intro _ mm hcl hmem; exact ⟨hcl, hmem⟩
  | cons op rest ih =>
    intro hl mm hcl hmem
    cases op with
    | put k2 v2 =>
      have hk2 : ¬ k2 = key := hl _ (List.mem_cons_self _ _)
      have hstep := clean_put hcl k2 v2
      have hmem2 : (key, v) ∈ occPairsL (map_put mm k2 v2).keys :=
        hstep.2.2 key v (fun hh => hk2 hh.symm) hmem
      show Clean (runOps rest (map_put mm k2 v2)) ∧
        (key, v) ∈ occPairsL (runOps rest (map_put mm k2 v2)).keys
      exact ih (fun o ho => hl o (List.mem_cons_of_mem _ ho)) _ hstep.1 hmem2
    | del k2 =>
      exact absurd (hl _ (List.mem_cons_self _ _)) (by simp [Op.putOther])

/-- Witness for C4 at a concrete input. -/
theorem round_trip_put_only_witness :
    (∀ op ∈ ([.put [97] 1] : List Op), op.isPut) ∧
      (∀ op ∈ ([.put [98] 7] : List Op), op.putOther [113]) ∧
      map_get [runOps ([.put [97] 1] ++ Op.put [113] 5 :: [.put [98] 7]) make_map] [113] = some 5 :=
  ⟨by decide, by decide, round_trip_put_only _ _ _ _ (by decide) (by decide)⟩

/-- The table the iterator's cursor points at (`iter->cur`). -/
def tblAt (chain : List MapS) (d : Nat) : MapS := chain.getD d ⟨[], 0, 0⟩

/-- The pairs the iterator still yields from the tables at depth `d`
and deeper, starting each table at slot 0: each table's occupied pairs
in slot order, minus the keys shadowed by more nested tables. -/
def specTail (chain : List MapS) (d : Nat) : List (List Nat × Nat) :=
  if h : d < chain.length then
    ((occPairsL (tblAt chain d).keys).filter (fun kv => ! is_dup chain d kv.1)) ++
      specTail chain (d + 1)
  else []
termination_by chain.length - d
decreasing_by omega

/-- The pairs the iterator still yields from state `(d, i)`: the rest
of table `d` from slot `i`, then the deeper tables. -/
def specFrom (chain : List MapS) (d i : Nat) : List (List Nat × Nat) :=
  ((occPairsL ((tblAt chain d).keys.drop i)).filter (fun kv => ! is_dup chain d kv.1)) ++
    specTail chain (d + 1)

/-- Reading a slot inside the dropped range. -/
theorem getD_eq_getElem {ks : List Slot} {i : Nat} (h : i < ks.length) :
    ks.getD i .empty = ks[i] := by
  rw [List.getD_eq_getElem?_getD, List.getElem?_eq_getElem h]
  rfl

/-- `do_map_next` on a tail with no occupied slots reports exhaustion. -/
theorem scanFrom_of_nil {ks : List Slot} :
    ∀ fuel i, ks.length - i < fuel → occPairsL (ks.drop i) = [] →
      scanFrom ks i fuel = none := by
  intro fuel
  induction fuel with
  | zero => intro i h; omega
  | succ f ih =>
    intro i hf hemp
    by_cases hi : i < ks.length
    · rw [List.drop_eq_getElem_cons hi] at hemp
      unfold occPairsL at hemp
      rw [List.filterMap_cons] at hemp
      cases hx : ks[i] with
      | empty =>
        rw [hx] at hemp
        simp only [scanFrom, if_pos hi]
        rw [getD_eq_getElem hi, hx]
        exact ih (i + 1) (by omega) hemp
      | tomb =>
        rw [hx] at hemp
        simp only [scanFrom, if_pos hi]
        rw [getD_eq_getElem hi, hx]
        exact ih (i + 1) (by omega) hemp
      | occ k v =>
        rw [hx] at hemp
        simp at hemp
    · simp only [scanFrom, if_neg hi]

/-- `do_map_next` yields the first occupied pair of the tail and leaves
the cursor just past it. -/
theorem scanFrom_of_cons {ks : List Slot} :
    ∀ fuel i kv tl, ks.length - i < fuel → occPairsL (ks.drop i) = kv :: tl →
      ∃ i', scanFrom ks i fuel = some (kv, i') ∧ i < i' ∧ i' ≤ ks.length ∧
        occPairsL (ks.drop i') = tl := by
  intro fuel
  induction fuel with
  | zero => intro i kv tl h; omega
  | succ f ih =>
    intro i kv tl hf hocc
    by_cases hi : i < ks.length
    · rw [List.drop_eq_getElem_cons hi] at hocc
      unfold occPairsL at hocc
      rw [List.filterMap_cons] at hocc
      cases hx : ks[i] with
      | empty =>
        rw [hx] at hocc
        obtain ⟨i', h1, h2, h3, h4⟩ := ih (i + 1) kv tl (by omega) hocc
        refine ⟨i', ?_, by omega, h3, h4⟩
        simp only [scanFrom, if_pos hi]
        rw [getD_eq_getElem hi, hx]
        exact h1
      | tomb =>
        rw [hx] at hocc
        obtain ⟨i', h1, h2, h3, h4⟩ := ih (i + 1) kv tl (by omega) hocc
        refine ⟨i', ?_, by omega, h3, h4⟩
        simp only [scanFrom, if_pos hi]
        rw [getD_eq_getElem hi, hx]
        exact h1
      | occ k v =>
        rw [hx] at hocc
        have hkv : kv = (k, v) ∧ occPairsL (ks.drop (i + 1)) = tl := by
          have := hocc
          simp at this
          exact ⟨this.1.symm, this.2⟩
        refine ⟨i + 1, ?_, by omega, by omega, hkv.2⟩
        simp only [scanFrom, if_pos hi]
        rw [getD_eq_getElem hi, hx, hkv.1]
    · rw [List.drop_eq_nil_of_le (by omega)] at hocc
      simp [occPairsL] at hocc

/-- Steps the iterator can still take from state `(d, i)`. -/
def remSteps (chain : List MapS) (d i : Nat) : Nat :=
  (((chain.drop d).map (fun m => m.keys.length)).sum - i) + (chain.length - d)

/-- The tail spec from the next table equals the tail spec restarted at
its slot 0. -/
theorem specTail_eq_specFrom_zero (chain : List MapS) (d : Nat) :
    specTail chain d = specFrom chain d 0 := by
  unfold specFrom
  by_cases hd : d < chain.length
  · conv_lhs => unfold specTail
    rw [dif_pos hd]
    rfl
  · conv_lhs => unfold specTail
    rw [dif_neg hd]
    have h1 : tblAt chain d = ⟨[], 0, 0⟩ := by
      unfold tblAt
      rw [List.getD_eq_getElem?_getD, List.getElem?_eq_none (by omega)]
      rfl
    have h2 : specTail chain (d + 1) = [] := by
      unfold specTail
      rw [dif_neg (by omega)]
    rw [h1, h2]
    simp [occPairsL]

/-- One `map_next` call consumes exactly the head of the pending spec:
it returns `none` when nothing is pending, and otherwise yields the
head and moves to a state whose pending spec is the tail. -/
theorem map_next_spec (chain : List MapS) :
    ∀ fuel d i, remSteps chain d i < fuel → i ≤ (tblAt chain d).keys.length →
      (specFrom chain d i = [] → map_next chain d i fuel = none) ∧
      (∀ kv tl, specFrom chain d i = kv :: tl →
        ∃ d' i', map_next chain d i fuel = some (kv, d', i') ∧
          specFrom chain d' i' = tl ∧ i' ≤ (tblAt chain d').keys.length) := by
  intro fuel
  induction fuel with
  | zero => intro d i h; omega
  | succ f ih =>
    intro d i hf hi
    cases hdrop : chain.drop d with
    | nil =>
      have hd : chain.length ≤ d := by
        by_contra hcon
        push_neg at hcon
        rw [List.drop_eq_getElem_cons hcon] at hdrop
        exact List.noConfusion hdrop
      have h1 : tblAt chain d = ⟨[], 0, 0⟩ := by
        unfold tblAt
        rw [List.getD_eq_getElem?_getD, List.getElem?_eq_none (by omega)]
        rfl
      have hspec : specFrom chain d i = [] := by
        unfold specFrom
        have h2 : specTail chain (d + 1) = [] := by
          unfold specTail
          rw [dif_neg (by omega)]
        rw [h1, h2]
        simp [occPairsL]
      refine ⟨fun _ => ?_, fun kv tl hcontra => ?_⟩
      · simp only [map_next]
        rw [hdrop]
      · rw [hspec] at hcontra
        exact List.noConfusion hcontra
    | cons cur rest =>
      have hd : d < chain.length := by
        by_contra hcon
        push_neg at hcon
        rw [List.drop_eq_nil_of_le hcon] at hdrop
        exact List.noConfusion hdrop
      have hcur : tblAt chain d = cur := by
        unfold tblAt
        rw [List.drop_eq_getElem_cons hd] at hdrop
        have : chain[d] = cur := (List.cons.injEq _ _ _ _ ▸ hdrop).1
        rw [List.getD_eq_getElem?_getD, List.getElem?_eq_getElem hd, this]
        rfl
      have hsum : ((chain.drop d).map (fun m => m.keys.length)).sum =
          cur.keys.length + ((chain.drop (d + 1)).map (fun m => m.keys.length)).sum := by
        rw [List.drop_eq_getElem_cons hd] at hdrop ⊢
        have : chain[d] = cur := (List.cons.injEq _ _ _ _ ▸ hdrop).1
        rw [this]
        simp
      rw [hcur] at hi
      cases hsp : occPairsL (cur.keys.drop i) with
      | nil =>
        have hscan := @scanFrom_of_nil cur.keys (cur.keys.length + 1) i (by omega) hsp
        have hstep : map_next chain d i (f + 1) = map_next chain (d + 1) 0 f := by
          simp only [map_next]
          simp only [hdrop, hscan]
        have hspec0 : specFrom chain d i = specFrom chain (d + 1) 0 := by
          rw [← specTail_eq_specFrom_zero]
          unfold specFrom
          rw [hcur, hsp]
          rfl
        have hrem : remSteps chain (d + 1) 0 < f := by
          unfold remSteps at hf ⊢
          rw [hsum] at hf
          omega
        obtain ⟨ihnone, ihcons⟩ := ih (d + 1) 0 hrem (Nat.zero_le _)
        refine ⟨fun hnil => ?_, fun kv tl hcons => ?_⟩
        · rw [hstep]
          exact ihnone (by rw [← hspec0]; exact hnil)
        · rw [hspec0] at hcons
          obtain ⟨d', i', hh1, hh2, hh3⟩ := ihcons kv tl hcons
          exact ⟨d', i', by rw [hstep]; exact hh1, hh2, hh3⟩
      | cons kv0 tl0 =>
        obtain ⟨i', hscan, hii, hilen, hrest⟩ :=
          @scanFrom_of_cons cur.keys (cur.keys.length + 1) i kv0 tl0 (by omega) hsp
        by_cases hdup : is_dup chain d kv0.1 = true
        · have hstep : map_next chain d i (f + 1) = map_next chain d i' f := by
            simp only [map_next]
            simp only [hdrop, hscan]
            simp [hdup]
          have hspec_eq : specFrom chain d i = specFrom chain d i' := by
            unfold specFrom
            rw [hcur, hsp, hrest]
            rw [List.filter_cons_of_neg (by simp [hdup])]
          have hrem : remSteps chain d i' < f := by
            unfold remSteps at hf ⊢
            rw [hsum] at hf ⊢
            omega
          obtain ⟨ihnone, ihcons⟩ := ih d i' hrem (by rw [hcur]; exact hilen)
          refine ⟨fun hnil => ?_, fun kv tl hcons => ?_⟩
          · rw [hstep]
            exact ihnone (by rw [← hspec_eq]; exact hnil)
          · rw [hspec_eq] at hcons
            obtain ⟨d', i2, hh1, hh2, hh3⟩ := ihcons kv tl hcons
            exact ⟨d', i2, by rw [hstep]; exact hh1, hh2, hh3⟩
        · have hdup' : is_dup chain d kv0.1 = false := by
            cases hx : is_dup chain d kv0.1
            · rfl
            · exact absurd hx hdup
          have hstep : map_next chain d i (f + 1) = some (kv0, d, i') := by
            simp only [map_next]
            simp only [hdrop, hscan]
            simp [hdup']
          have hspec_cons : specFrom chain d i =
              kv0 :: ((occPairsL (cur.keys.drop i')).filter
                (fun kv => ! is_dup chain d kv.1) ++ specTail chain (d + 1)) := by
            unfold specFrom
            rw [hcur, hsp, hrest]
            rw [List.filter_cons_of_pos (by rw [hdup']; rfl)]
            rw [List.cons_append]
          refine ⟨fun hnil => ?_, fun kv tl hcons => ?_⟩
          · rw [hspec_cons] at hnil
            exact absurd hnil (List.noConfusion)
          · rw [hspec_cons] at hcons
            have hkv : kv0 = kv ∧ ((occPairsL (cur.keys.drop i')).filter
                (fun kv => ! is_dup chain d kv.1) ++ specTail chain (d + 1)) = tl := by
              exact ⟨(List.cons.injEq _ _ _ _ ▸ hcons).1, (List.cons.injEq _ _ _ _ ▸ hcons).2⟩
            refine ⟨d, i', ?_, ?_, by rw [hcur]; exact hilen⟩
            · rw [hstep, hkv.1]
            · rw [← hkv.2]
              unfold specFrom
              rw [hcur]

/-- The slot totals of a chain suffix are bounded by the whole chain's. -/
theorem drop_map_sum_le (chain : List MapS) (d : Nat) :
    ((chain.drop d).map (fun m => m.keys.length)).sum ≤
      (chain.map (fun m => m.keys.length)).sum := by
  conv_rhs => rw [← List.take_append_drop d chain]
  rw [List.map_append, List.sum_append]
  omega

/-- The step budget of any iterator state fits under the fuel every
`map_next` call is given. -/
theorem remSteps_lt_totalFuel (chain : List MapS) (d i : Nat) :
    remSteps chain d i < totalFuel chain := by
  unfold remSteps totalFuel
  have := drop_map_sum_le chain d
  omega

/-- The pending spec is no longer than the remaining slot count. -/
theorem specTail_length_le (chain : List MapS) :
    ∀ n d, chain.length ≤ d + n →
      (specTail chain d).length ≤ ((chain.drop d).map (fun m => m.keys.length)).sum := by
  intro n
  induction n with
  | zero =>
    intro d hd
    unfold specTail
    rw [dif_neg (by omega)]
    simp
  | succ n ih =>
    intro d hd
    by_cases h : d < chain.length
    · unfold specTail
      rw [dif_pos h]
      rw [List.length_append]
      have hdrop : chain.drop d = chain[d] :: chain.drop (d + 1) := List.drop_eq_getElem_cons h
      have htbl : tblAt chain d = chain[d] := by
        unfold tblAt
        rw [List.getD_eq_getElem?_getD, List.getElem?_eq_getElem h]
        rfl
      rw [hdrop, List.map_cons, List.sum_cons, htbl]
      have h1 : ((occPairsL chain[d].keys).filter
          (fun kv => ! is_dup chain d kv.1)).length ≤ chain[d].keys.length :=
        le_trans (List.length_filter_le _ _) (List.length_filterMap_le _ _)
      have h2 := ih (d + 1) (by omega)
      omega
    · unfold specTail
      rw [dif_neg h]
      simp

/-- Driving the iterator with enough outer steps yields exactly the
pending spec. -/
theorem iterCollect_spec (chain : List MapS) :
    ∀ steps d i, (specFrom chain d i).length < steps →
      i ≤ (tblAt chain d).keys.length →
      iterCollect chain d i steps = specFrom chain d i := by
  intro steps
  induction steps with
  | zero => intro d i h; omega
  | succ s ih =>
    intro d i hlen hi
    obtain ⟨hnone, hcons⟩ :=
      map_next_spec chain (totalFuel chain) d i (remSteps_lt_totalFuel chain d i) hi
    cases hsp : specFrom chain d i with
    | nil =>
      simp only [iterCollect]
      simp only [hnone hsp]
    | cons kv tl =>
      obtain ⟨d', i', h1, h2, h3⟩ := hcons kv tl hsp
      have hlt : (specFrom chain d' i').length < s := by
        rw [h2]
        rw [hsp] at hlen
        simp only [List.length_cons] at hlen
        omega
      simp only [iterCollect]
      simp only [h1]
      rw [ih d' i' hlt h3, h2]

/-- The full iteration of a chain yields exactly its spec: each table's
occupied pairs in slot order, with keys already bound in a more nested
table suppressed. -/
theorem mapIterList_eq_spec (chain : List MapS) :
    mapIterList chain = specTail chain 0 := by
  unfold mapIterList
  rw [specTail_eq_specFrom_zero]
  apply iterCollect_spec
  · rw [← specTail_eq_specFrom_zero]
    have h1 := specTail_length_le chain chain.length 0 (by omega)
    rw [List.drop_zero] at h1
    unfold totalFuel
    omega
  · exact Nat.zero_le _

/-- In a pair list whose first components are duplicate-free, filtering
on a member's key isolates exactly that member. -/
theorem filter_key_of_nodup :
    ∀ (l : List (List Nat × Nat)) (k : List Nat) (v : Nat),
      (l.map Prod.fst).Nodup → (k, v) ∈ l →
      l.filter (fun kv => decide (kv.1 = k)) = [(k, v)] := by
  intro l
  induction l with
  | nil => intro k v _ hm; exact absurd hm (List.not_mem_nil _)
  | cons a rest ih =>
    intro k v hnd hm
    rw [List.map_cons] at hnd
    have hnd1 := (List.nodup_cons.mp hnd).1
    have hnd2 := (List.nodup_cons.mp hnd).2
    rcases List.mem_cons.mp hm with h | h
    · subst h
      rw [List.filter_cons_of_pos (by simp)]
      have hrest : rest.filter (fun kv => decide (kv.1 = k)) = [] := by
        rw [List.filter_eq_nil_iff]
        intro x hx
        simp only [decide_eq_true_eq]
        intro hxk
        exact hnd1 (List.mem_map.mpr ⟨x, hx, hxk⟩)
      rw [hrest]
    · have ha : ¬ (a.1 = k) := by
        intro hak
        have : k ∈ rest.map Prod.fst :=
          List.mem_map_of_mem Prod.fst h
        rw [← hak] at this
        exact hnd1 this
      rw [List.filter_cons_of_neg (by simpa using ha)]
      exact ih k v hnd2 h

/-- C5 (amended): for a parent table `A` and a clean child table `B`
both binding key `k`, `map_get` on the chain returns B's value, and a
full iteration of the chain yields `k` exactly once, paired with B's
value and never with A's.  (When the child table itself holds duplicate
slots for `k` — possible after remove/re-put histories — the iterator
yields `k` more than once; see the counterexample.) -/
theorem shadowed_iteration (A B : MapS) (k : List Nat) (vA vB : Nat)
    (hB : Clean B) (hkB : (k, vB) ∈ occPairsL B.keys)
    (hkA : (k, vA) ∈ occPairsL A.keys) :
    map_get [B, A] k = some vB ∧
      (mapIterList [B, A]).filter (fun kv => decide (kv.1 = k)) = [(k, vB)] := by
  obtain ⟨p, hp, hs⟩ := occPairsL_mem_iff.mp hkB
  have hget : map_get_nostack B k = some vB := get_nostack_of_slot hB hp hs
  constructor
  · simp only [map_get, hget]
  · rw [mapIterList_eq_spec]
    have h0 : tblAt [B, A] 0 = B := rfl
    have h1 : tblAt [B, A] 1 = A := rfl
    have hTail2 : specTail [B, A] 2 = [] := by
      unfold specTail
      rw [dif_neg (by simp)]
    have hTail1 : specTail [B, A] 1 =
        (occPairsL A.keys).filter (fun kv => ! is_dup [B, A] 1 kv.1) := by
      unfold specTail
      rw [dif_pos (by simp)]
      rw [hTail2, List.append_nil, h1]
    have hTail0 : specTail [B, A] 0 =
        occPairsL B.keys ++
          (occPairsL A.keys).filter (fun kv => ! is_dup [B, A] 1 kv.1) := by
      conv_lhs => unfold specTail
      rw [dif_pos (by simp)]
      rw [hTail1, h0]
      congr 1
      rw [List.filter_eq_self]
      intro kv _
      rfl
    rw [hTail0, List.filter_append]
    have hBpart : (occPairsL B.keys).filter (fun kv => decide (kv.1 = k)) = [(k, vB)] := by
      apply filter_key_of_nodup
      · rw [← liveKeysL_eq_map_fst]
        exact hB.nodupKeys
      · exact hkB
    have hApart : ((occPairsL A.keys).filter
        (fun kv => ! is_dup [B, A] 1 kv.1)).filter (fun kv => decide (kv.1 = k)) = [] := by
      rw [List.filter_eq_nil_iff]
      intro x hx
      simp only [decide_eq_true_eq]
      intro hxk
      have hdup : is_dup [B, A] 1 x.1 = true := by
        rw [hxk]
        simp [is_dup, hget]
      have hmem := (List.mem_filter.mp hx).2
      rw [hdup] at hmem
      exact absurd hmem (by simp)
    rw [hBpart, hApart, List.append_nil]

/-- Witness for C5 at a concrete input: key `[97]` bound to 5 in the
child and to 7 in the parent. -/
theorem shadowed_iteration_witness :
    Clean (runOps [.put [97] 5] make_map) ∧
    (([97], 5) ∈ occPairsL (runOps [.put [97] 5] make_map).keys) ∧
    (([97], 7) ∈ occPairsL (runOps [.put [97] 7] make_map).keys) ∧
    (map_get [runOps [.put [97] 5] make_map, runOps [.put [97] 7] make_map] [97] = some 5 ∧
      (mapIterList [runOps [.put [97] 5] make_map, runOps [.put [97] 7] make_map]).filter
        (fun kv => decide (kv.1 = [97])) = [([97], 5)]) :=
  ⟨clean_runOps_puts [.put [97] 5] (by decide) make_map clean_make_map,
   by decide, by decide,
   shadowed_iteration (runOps [.put [97] 7] make_map) (runOps [.put [97] 5] make_map)
     [97] 7 5
     (clean_runOps_puts [.put [97] 5] (by decide) make_map clean_make_map)
     (by decide) (by decide)⟩

/-- Resolving six pairwise distinct fresh values fills the six register
slots front-to-back: afterwards the cache holds them most recently used
first, bound to `rdi..r9` in resolution order, and nothing was spilled. -/
theorem resolveSeq_fill (voff : List (Nat × Int)) (sig0 : List Nat)
    (v1 v2 v3 v4 v5 v6 : Nat)
    (h12 : v1 ≠ v2) (h13 : v1 ≠ v3) (h14 : v1 ≠ v4) (h15 : v1 ≠ v5) (h16 : v1 ≠ v6)
    (h23 : v2 ≠ v3) (h24 : v2 ≠ v4) (h25 : v2 ≠ v5) (h26 : v2 ≠ v6)
    (h34 : v3 ≠ v4) (h35 : v3 ≠ v5) (h36 : v3 ≠ v6)
    (h45 : v4 ≠ v5) (h46 : v4 ≠ v6)
    (h56 : v5 ≠ v6) :
    (resolveSeq voff [v1, v2, v3, v4, v5, v6] (ra0 sig0)).order =
      [(v6, "r9"), (v5, "r8"), (v4, "rcx"), (v3, "rdx"), (v2, "rsi"), (v1, "rdi")] ∧
    (resolveSeq voff [v1, v2, v3, v4, v5, v6] (ra0 sig0)).spilled = sig0 := by
  simp [resolveSeq, regname, findIdx, ra0, regsL, h12, h13, h14, h15, h16,
    h23, h24, h25, h26, h34, h35, h36, h45, h46, h56]

/-- C6: with the six register slots of codegen.c, resolving seven
distinct values `v1..v7` in order keeps the first six cached (nothing
is evicted before the capacity boundary), evicts exactly `v1` at the
moment `v7` is resolved, and if any `u` of `v2..v6` is re-resolved
after the cache fills and before `v7`, the victim of `v7`'s resolve is
still `v1` — never the re-resolved `u` (least-recently-used eviction). -/
theorem lru_eviction_order (voff : List (Nat × Int)) (sig0 : List Nat)
    (v1 v2 v3 v4 v5 v6 v7 : Nat)
    (hnd : ([v1, v2, v3, v4, v5, v6, v7] : List Nat).Nodup) :
    cachedIds (resolveSeq voff [v1, v2, v3, v4, v5, v6] (ra0 sig0)) =
      [v6, v5, v4, v3, v2, v1] ∧
    evictedBy (resolveSeq voff [v1, v2, v3, v4, v5, v6] (ra0 sig0))
      (resolveSeq voff [v1, v2, v3, v4, v5, v6, v7] (ra0 sig0)) = [v1] ∧
    ∀ u ∈ ([v2, v3, v4, v5, v6] : List Nat),
      evictedBy (resolveSeq voff [v1, v2, v3, v4, v5, v6, u] (ra0 sig0))
        (resolveSeq voff [v1, v2, v3, v4, v5, v6, u, v7] (ra0 sig0)) = [v1] ∧
      u ∉ evictedBy (resolveSeq voff [v1, v2, v3, v4, v5, v6, u] (ra0 sig0))
        (resolveSeq voff [v1, v2, v3, v4, v5, v6, u, v7] (ra0 sig0)) := by
  simp only [List.nodup_cons, List.mem_cons, List.mem_singleton, List.not_mem_nil,
    or_false, not_or, List.nodup_nil, and_true] at hnd
  obtain ⟨⟨h12, h13, h14, h15, h16, h17⟩, ⟨h23, h24, h25, h26, h27⟩,
    ⟨h34, h35, h36, h37⟩, ⟨h45, h46, h47⟩, ⟨h56, h57⟩, h67⟩ := hnd
  obtain ⟨hf1, hf2⟩ := resolveSeq_fill voff sig0 v1 v2 v3 v4 v5 v6 h12 h13 h14 h15 h16
    h23 h24 h25 h26 h34 h35 h36 h45 h46 h56
  refine ⟨?_, ?_, ?_⟩
  · unfold cachedIds
    rw [hf1]
    rfl
  · have hsplit : resolveSeq voff [v1, v2, v3, v4, v5, v6, v7] (ra0 sig0) =
        (regname voff v7 (resolveSeq voff [v1, v2, v3, v4, v5, v6] (ra0 sig0))).2 := rfl
    rw [hsplit]
    generalize hg : resolveSeq voff [v1, v2, v3, v4, v5, v6] (ra0 sig0) = s6 at hf1 ⊢
    obtain ⟨ord, sp, out⟩ := s6
    simp only at hf1
    subst hf1
    have hfin : (regname voff v7
        (⟨[(v6, "r9"), (v5, "r8"), (v4, "rcx"), (v3, "rdx"), (v2, "rsi"), (v1, "rdi")],
          sp, out⟩ : RA)).2.order =
        [(v7, "rdi"), (v6, "r9"), (v5, "r8"), (v4, "rcx"), (v3, "rdx"), (v2, "rsi")] := by
      simp [regname, findIdx, h17, h27, h37, h47, h57, h67]
    unfold evictedBy cachedIds
    rw [hfin]
    simp [h12, h13, h14, h15, h16, h17]
  · intro u hu
    simp only [List.mem_cons, List.mem_singleton, List.not_mem_nil, or_false] at hu
    rcases hu with hu | hu | hu | hu | hu
    · rw [hu]
      have hsplit : resolveSeq voff [v1, v2, v3, v4, v5, v6, v2] (ra0 sig0) =
          (regname voff v2 (resolveSeq voff [v1, v2, v3, v4, v5, v6] (ra0 sig0))).2 := rfl
      have hsplit2 : resolveSeq voff [v1, v2, v3, v4, v5, v6, v2, v7] (ra0 sig0) =
          (regname voff v7
            (regname voff v2 (resolveSeq voff [v1, v2, v3, v4, v5, v6] (ra0 sig0))).2).2 := rfl
      rw [hsplit, hsplit2]
      generalize hg : resolveSeq voff [v1, v2, v3, v4, v5, v6] (ra0 sig0) = s6 at hf1 ⊢
      obtain ⟨ord, sp, out⟩ := s6
      simp only at hf1
      subst hf1
      have hmid : (regname voff v2
          (⟨[(v6, "r9"), (v5, "r8"), (v4, "rcx"), (v3, "rdx"), (v2, "rsi"), (v1, "rdi")],
            sp, out⟩ : RA)).2 =
          ⟨[(v2, "rsi"), (v6, "r9"), (v5, "r8"), (v4, "rcx"), (v3, "rdx"), (v1, "rdi")], sp, out⟩ := by
        simp [regname, findIdx, move_to_head, (Ne.symm h26), (Ne.symm h25), (Ne.symm h24), (Ne.symm h23)]
      rw [hmid]
      have hfin : (regname voff v7
          (⟨[(v2, "rsi"), (v6, "r9"), (v5, "r8"), (v4, "rcx"), (v3, "rdx"), (v1, "rdi")], sp, out⟩ : RA)).2.order =
          [(v7, "rdi"), (v2, "rsi"), (v6, "r9"), (v5, "r8"), (v4, "rcx"), (v3, "rdx")] := by
        simp [regname, findIdx, h17, h27, h37, h47, h57, h67]
      refine ⟨?_, ?_⟩ <;>
        [skip;
         refine (fun hmem => ?_)]
      · unfold evictedBy cachedIds
        rw [hfin]
        simp [h12, h13, h14, h15, h16, h17]
      · unfold evictedBy cachedIds at hmem
        rw [hfin] at hmem
        simp [h12, h13, h14, h15, h16, h17] at hmem
        exact h12 hmem.symm
    · rw [hu]
      have hsplit : resolveSeq voff [v1, v2, v3, v4, v5, v6, v3] (ra0 sig0) =
          (regname voff v3 (resolveSeq voff [v1, v2, v3, v4, v5, v6] (ra0 sig0))).2 := rfl
      have hsplit2 : resolveSeq voff [v1, v2, v3, v4, v5, v6, v3, v7] (ra0 sig0) =
          (regname voff v7
            (regname voff v3 (resolveSeq voff [v1, v2, v3, v4, v5, v6] (ra0 sig0))).2).2 := rfl
      rw [hsplit, hsplit2]
      generalize hg : resolveSeq voff [v1, v2, v3, v4, v5, v6] (ra0 sig0) = s6 at hf1 ⊢
      obtain ⟨ord, sp, out⟩ := s6
      simp only at hf1
      subst hf1
      have hmid : (regname voff v3
          (⟨[(v6, "r9"), (v5, "r8"), (v4, "rcx"), (v3, "rdx"), (v2, "rsi"), (v1, "rdi")],
            sp, out⟩ : RA)).2 =
          ⟨[(v3, "rdx"), (v6, "r9"), (v5, "r8"), (v4, "rcx"), (v2, "rsi"), (v1, "rdi")], sp, out⟩ := by
        simp [regname, findIdx, move_to_head, (Ne.symm h36), (Ne.symm h35), (Ne.symm h34)]
      rw [hmid]
      have hfin : (regname voff v7
          (⟨[(v3, "rdx"), (v6, "r9"), (v5, "r8"), (v4, "rcx"), (v2, "rsi"), (v1, "rdi")], sp, out⟩ : RA)).2.order =
          [(v7, "rdi"), (v3, "rdx"), (v6, "r9"), (v5, "r8"), (v4, "rcx"), (v2, "rsi")] := by
        simp [regname, findIdx, h17, h27, h37, h47, h57, h67]
      refine ⟨?_, ?_⟩ <;>
        [skip;
         refine (fun hmem => ?_)]
      · unfold evictedBy cachedIds
        rw [hfin]
        simp [h12, h13, h14, h15, h16, h17]
      · unfold evictedBy cachedIds at hmem
        rw [hfin] at hmem
        simp [h12, h13, h14, h15, h16, h17] at hmem
        exact h13 hmem.symm
    · rw [hu]
      have hsplit : resolveSeq voff [v1, v2, v3, v4, v5, v6, v4] (ra0 sig0) =
          (regname voff v4 (resolveSeq voff [v1, v2, v3, v4, v5, v6] (ra0 sig0))).2 := rfl
      have hsplit2 : resolveSeq voff [v1, v2, v3, v4, v5, v6, v4, v7] (ra0 sig0) =
          (regname voff v7
            (regname voff v4 (resolveSeq voff [v1, v2, v3, v4, v5, v6] (ra0 sig0))).2).2 := rfl
      rw [hsplit, hsplit2]
      generalize hg : resolveSeq voff [v1, v2, v3, v4, v5, v6] (ra0 sig0) = s6 at hf1 ⊢
      obtain ⟨ord, sp, out⟩ := s6
      simp only at hf1
      subst hf1
      have hmid : (regname voff v4
          (⟨[(v6, "r9"), (v5, "r8"), (v4, "rcx"), (v3, "rdx"), (v2, "rsi"), (v1, "rdi")],
            sp, out⟩ : RA)).2 =
          ⟨[(v4, "rcx"), (v6, "r9"), (v5, "r8"), (v3, "rdx"), (v2, "rsi"), (v1, "rdi")], sp, out⟩ := by
        simp [regname, findIdx, move_to_head, (Ne.symm h46), (Ne.symm h45)]
      rw [hmid]
      have hfin : (regname voff v7
          (⟨[(v4, "rcx"), (v6, "r9"), (v5, "r8"), (v3, "rdx"), (v2, "rsi"), (v1, "rdi")], sp, out⟩ : RA)).2.order =
          [(v7, "rdi"), (v4, "rcx"), (v6, "r9"), (v5, "r8"), (v3, "rdx"), (v2, "rsi")] := by
        simp [regname, findIdx, h17, h27, h37, h47, h57, h67]
      refine ⟨?_, ?_⟩ <;>
        [skip;
         refine (fun hmem => ?_)]
      · unfold evictedBy cachedIds
        rw [hfin]
        simp [h12, h13, h14, h15, h16, h17]
      · unfold evictedBy cachedIds at hmem
        rw [hfin] at hmem
        simp [h12, h13, h14, h15, h16, h17] at hmem
        exact h14 hmem.symm
    · rw [hu]
      have hsplit : resolveSeq voff [v1, v2, v3, v4, v5, v6, v5] (ra0 sig0) =
          (regname voff v5 (resolveSeq voff [v1, v2, v3, v4, v5, v6] (ra0 sig0))).2 := rfl
      have hsplit2 : resolveSeq voff [v1, v2, v3, v4, v5, v6, v5, v7] (ra0 sig0) =
          (regname voff v7
            (regname voff v5 (resolveSeq voff [v1, v2, v3, v4, v5, v6] (ra0 sig0))).2).2 := rfl
      rw [hsplit, hsplit2]
      generalize hg : resolveSeq voff [v1, v2, v3, v4, v5, v6] (ra0 sig0) = s6 at hf1 ⊢
      obtain ⟨ord, sp, out⟩ := s6
      simp only at hf1
      subst hf1
      have hmid : (regname voff v5
          (⟨[(v6, "r9"), (v5, "r8"), (v4, "rcx"), (v3, "rdx"), (v2, "rsi"), (v1, "rdi")],
            sp, out⟩ : RA)).2 =
          ⟨[(v5, "r8"), (v6, "r9"), (v4, "rcx"), (v3, "rdx"), (v2, "rsi"), (v1, "rdi")], sp, out⟩ := by
        simp [regname, findIdx, move_to_head, (Ne.symm h56)]
      rw [hmid]
      have hfin : (regname voff v7
          (⟨[(v5, "r8"), (v6, "r9"), (v4, "rcx"), (v3, "rdx"), (v2, "rsi"), (v1, "rdi")], sp, out⟩ : RA)).2.order =
          [(v7, "rdi"), (v5, "r8"), (v6, "r9"), (v4, "rcx"), (v3, "rdx"), (v2, "rsi")] := by
        simp [regname, findIdx, h17, h27, h37, h47, h57, h67]
      refine ⟨?_, ?_⟩ <;>
        [skip;
         refine (fun hmem => ?_)]
      · unfold evictedBy cachedIds
        rw [hfin]
        simp [h12, h13, h14, h15, h16, h17]
      · unfold evictedBy cachedIds at hmem
        rw [hfin] at hmem
        simp [h12, h13, h14, h15, h16, h17] at hmem
        exact h15 hmem.symm
    · rw [hu]
      have hsplit : resolveSeq voff [v1, v2, v3, v4, v5, v6, v6] (ra0 sig0) =
          (regname voff v6 (resolveSeq voff [v1, v2, v3, v4, v5, v6] (ra0 sig0))).2 := rfl
      have hsplit2 : resolveSeq voff [v1, v2, v3, v4, v5, v6, v6, v7] (ra0 sig0) =
          (regname voff v7
            (regname voff v6 (resolveSeq voff [v1, v2, v3, v4, v5, v6] (ra0 sig0))).2).2 := rfl
      rw [hsplit, hsplit2]
      generalize hg : resolveSeq voff [v1, v2, v3, v4, v5, v6] (ra0 sig0) = s6 at hf1 ⊢
      obtain ⟨ord, sp, out⟩ := s6
      simp only at hf1
      subst hf1
      have hmid : (regname voff v6
          (⟨[(v6, "r9"), (v5, "r8"), (v4, "rcx"), (v3, "rdx"), (v2, "rsi"), (v1, "rdi")],
            sp, out⟩ : RA)).2 =
          ⟨[(v6, "r9"), (v5, "r8"), (v4, "rcx"), (v3, "rdx"), (v2, "rsi"), (v1, "rdi")], sp, out⟩ := by
        simp [regname, findIdx, move_to_head]
      rw [hmid]
      have hfin : (regname voff v7
          (⟨[(v6, "r9"), (v5, "r8"), (v4, "rcx"), (v3, "rdx"), (v2, "rsi"), (v1, "rdi")], sp, out⟩ : RA)).2.order =
          [(v7, "rdi"), (v6, "r9"), (v5, "r8"), (v4, "rcx"), (v3, "rdx"), (v2, "rsi")] := by
        simp [regname, findIdx, h17, h27, h37, h47, h57, h67]
      refine ⟨?_, ?_⟩ <;>
        [skip;
         refine (fun hmem => ?_)]
      · unfold evictedBy cachedIds
        rw [hfin]
        simp [h12, h13, h14, h15, h16, h17]
      · unfold evictedBy cachedIds at hmem
        rw [hfin] at hmem
        simp [h12, h13, h14, h15, h16, h17] at hmem
        exact h16 hmem.symm

/-- Witness for C6 at a concrete input: ids 1..7, empty offset table. -/
theorem lru_eviction_order_witness :
    (([1, 2, 3, 4, 5, 6, 7] : List Nat).Nodup) ∧
    (cachedIds (resolveSeq [] [1, 2, 3, 4, 5, 6] (ra0 [])) = [6, 5, 4, 3, 2, 1] ∧
      evictedBy (resolveSeq [] [1, 2, 3, 4, 5, 6] (ra0 []))
        (resolveSeq [] [1, 2, 3, 4, 5, 6, 7] (ra0 [])) = [1] ∧
      ∀ u ∈ ([2, 3, 4, 5, 6] : List Nat),
        evictedBy (resolveSeq [] [1, 2, 3, 4, 5, 6, u] (ra0 []))
          (resolveSeq [] [1, 2, 3, 4, 5, 6, u, 7] (ra0 [])) = [1] ∧
        u ∉ evictedBy (resolveSeq [] [1, 2, 3, 4, 5, 6, u] (ra0 []))
          (resolveSeq [] [1, 2, 3, 4, 5, 6, u, 7] (ra0 []))) :=
  ⟨by decide, lru_eviction_order [] [] 1 2 3 4 5 6 7 (by decide)⟩


/-- `alloc` grows the frame offset by exactly the size of the slot it
appends, keeping offset = total size of the `mems` vector. -/
theorem allocMem_offset {s : Nat} {cg : CG} {mid : Nat} {m : Mem} {cg1 : CG}
    (h : allocMem s cg = (mid, m, cg1))
    (hoff : cg.offset = (cg.mems.map Mem.size).sum) :
    cg1.offset = (cg1.mems.map Mem.size).sum := by
  have h3 := congrArg (fun t => t.2.2) h
  simp only [allocMem, make_mem] at h3
  rw [← h3]
  simp [hoff]

/-- `make_var` touches neither the frame offset nor the `mems` vector. -/
theorem make_var_state {cg : CG} {r : VarRef} {cg1 : CG} (h : make_var cg = (r, cg1)) :
    cg1.offset = cg.offset ∧ cg1.mems = cg.mems := by
  have h2 := congrArg (fun t => t.2) h
  simp only [make_var] at h2
  rw [← h2]
  exact ⟨rfl, rfl⟩

/-- Throughout translation, the running frame offset equals the summed
sizes of the `Mem` slots created so far (`walk` part, proved mutually
with the statement-list loop). -/
theorem walk_offset :
    ∀ n cg, ∀ r cg', walk n cg = some (r, cg') →
      cg.offset = (cg.mems.map Mem.size).sum →
      cg'.offset = (cg'.mems.map Mem.size).sum := by
  intro n cg
  induction n, cg using walk.induct with
  | motive_2 l cg => exact ∀ cg', walkList l cg = some cg' →
      cg.offset = (cg.mems.map Mem.size).sum →
      cg'.offset = (cg'.mems.map Mem.size).sum
  | case1 name tysize cg mid m cg1 halloc cg2 e rhs cg3 hwe ih =>
    intro r cg' hw hoff
    simp only [allocMem, make_mem] at halloc
    injection halloc with h1 h23
    injection h23 with h2 h3
    subst h1 h2 h3
    simp only [walk] at hw
    rw [hwe] at hw
    injection hw with hw1
    injection hw1 with hw2 hw3
    rw [← hw3]
    exact ih (some rhs) cg3 hwe (by simp [hoff])
  | case2 name tysize cg mid m cg1 halloc cg2 e hfail ih =>
    intro r cg' hw hoff
    simp only [allocMem, make_mem] at halloc
    injection halloc with h1 h23
    injection h23 with h2 h3
    subst h1 h2 h3
    simp only [walk] at hw
    cases hx : walk e cg2 with
    | none => exact absurd hw (by simp)
    | some p =>
      obtain ⟨ro, cgx⟩ := p
      cases ro with
      | none => simp at hw
      | some rv => exact absurd hx (hfail rv cgx)
  | case3 name tysize cg mid m cg1 halloc =>
    intro r cg' hw hoff
    simp only [allocMem, make_mem] at halloc
    injection halloc with h1 h23
    injection h23 with h2 h3
    subst h1 h2 h3
    simp only [walk] at hw
    injection hw with hw1
    injection hw1 with hw2 hw3
    rw [← hw3]
    simp [hoff]
  | case4 name cg v hget r1 cg1 hmv =>
    intro r cg' hw hoff
    simp only [make_var] at hmv
    injection hmv with h1 h2
    subst h1 h2
    simp only [walk, hget] at hw
    injection hw with hw1
    injection hw1 with hw2 hw3
    rw [← hw3]
    exact hoff
  | case5 name cg hget =>
    intro r cg' hw hoff
    simp only [walk, hget] at hw
    exact absurd hw (by simp)
  | case6 stmts cg cg1 hwl ihl =>
    intro r cg' hw hoff
    simp only [walk] at hw
    rw [hwl] at hw
    injection hw with hw1
    injection hw1 with hw2 hw3
    rw [← hw3]
    exact ihl cg1 hwl hoff
  | case7 stmts cg hwl ihl =>
    intro r cg' hw hoff
    simp only [walk, hwl] at hw
    exact absurd hw (by simp)
  | case8 e cg rhs cg3 hwe ih =>
    intro r cg' hw hoff
    simp only [walk] at hw
    rw [hwe] at hw
    injection hw with hw1
    injection hw1 with hw2 hw3
    rw [← hw3]
    exact ih (some rhs) cg3 hwe hoff
  | case9 e cg hfail ih =>
    intro r cg' hw hoff
    simp only [walk] at hw
    cases hx : walk e cg with
    | none => exact absurd hw (by simp)
    | some p =>
      obtain ⟨ro, cgx⟩ := p
      cases ro with
      | none => simp at hw
      | some rv => exact absurd hx (hfail rv cgx)
  | case10 e cg ih =>
    intro r cg' hw hoff
    simp only [walk] at hw
    exact ih r cg' hw hoff
  | case11 l rn cg r1 cg1 hmv rhs cg3 hwl rhs2 cg4 hwr ihl ihr =>
    intro r cg' hw hoff
    simp only [make_var] at hmv
    injection hmv with h1 h2
    subst h1 h2
    simp only [walk, make_var] at hw
    simp only [hwl] at hw
    simp only [hwr] at hw
    injection hw with hw1
    injection hw1 with hw2 hw3
    rw [← hw3]
    exact ihr (some rhs2) cg4 hwr (ihl (some rhs) cg3 hwl hoff)
  | case12 l rn cg r1 cg1 hmv rhs cg3 hwl hfail ihl ihr =>
    intro r cg' hw hoff
    simp only [make_var] at hmv
    injection hmv with h1 h2
    subst h1 h2
    simp only [walk, make_var] at hw
    simp only [hwl] at hw
    cases hx : walk rn cg3 with
    | none => exact absurd hw (by simp)
    | some p =>
      obtain ⟨ro, cgx⟩ := p
      cases ro with
      | none => simp at hw
      | some rv => exact absurd hx (hfail rv cgx)
  | case13 l rn cg r1 cg1 hmv hfail ihl =>
    intro r cg' hw hoff
    simp only [make_var] at hmv
    injection hmv with h1 h2
    subst h1 h2
    simp only [walk, make_var] at hw
    cases hx : walk l { cg with vars := cg.vars ++ [cg.nextId], nextId := cg.nextId + 1 } with
    | none => exact absurd hw (by simp)
    | some p =>
      obtain ⟨ro, cgx⟩ := p
      cases ro with
      | none => simp at hw
      | some rv => exact absurd hx (hfail rv cgx)
  | case14 l rn cg r1 cg1 hmv rhs cg3 hwl rhs2 cg4 hwr ihl ihr =>
    intro r cg' hw hoff
    simp only [make_var] at hmv
    injection hmv with h1 h2
    subst h1 h2
    simp only [walk, make_var] at hw
    simp only [hwl] at hw
    simp only [hwr] at hw
    injection hw with hw1
    injection hw1 with hw2 hw3
    rw [← hw3]
    exact ihr (some rhs2) cg4 hwr (ihl (some rhs) cg3 hwl hoff)
  | case15 l rn cg r1 cg1 hmv rhs cg3 hwl hfail ihl ihr =>
    intro r cg' hw hoff
    simp only [make_var] at hmv
    injection hmv with h1 h2
    subst h1 h2
    simp only [walk, make_var] at hw
    simp only [hwl] at hw
    cases hx : walk rn cg3 with
    | none => exact absurd hw (by simp)
    | some p =>
      obtain ⟨ro, cgx⟩ := p
      cases ro with
      | none => simp at hw
      | some rv => exact absurd hx (hfail rv cgx)
  | case16 l rn cg r1 cg1 hmv hfail ihl =>
    intro r cg' hw hoff
    simp only [make_var] at hmv
    injection hmv with h1 h2
    subst h1 h2
    simp only [walk, make_var] at hw
    cases hx : walk l { cg with vars := cg.vars ++ [cg.nextId], nextId := cg.nextId + 1 } with
    | none => exact absurd hw (by simp)
    | some p =>
      obtain ⟨ro, cgx⟩ := p
      cases ro with
      | none => simp at hw
      | some rv => exact absurd hx (hfail rv cgx)
  | case17 v cg =>
    intro r cg' hw hoff
    simp only [walk] at hw
    injection hw with hw1
    injection hw1 with hw2 hw3
    rw [← hw3]
    exact hoff
  | case18 cg =>
    intro cg' hw hoff
    simp only [walkList] at hw
    injection hw with hw1
    rw [← hw1]
    exact hoff
  | case19 n rest cg fst cg1 hwn ihn ihrest =>
    intro cg' hw hoff
    simp only [walkList] at hw
    rw [hwn] at hw
    exact ihrest cg' hw (ihn fst cg1 hwn hoff)
  | case20 n rest cg hwn ihn =>
    intro cg' hw hoff
    simp only [walkList, hwn] at hw
    exact absurd hw (by simp)

/-- The `regalloc` loop advances the frame offset by 8 bytes per
computed variable. -/
theorem regalloc_foldl :
    ∀ (l : List Nat) (acc : List (Nat × Int) × Nat),
      (l.foldl (fun acc id => (acc.1 ++ [(id, -(Int.ofNat (acc.2 + 8)))], acc.2 + 8)) acc).2 =
        acc.2 + 8 * l.length := by
  intro l
  induction l with
  | nil => intro acc; simp
  | cons a t ih =>
    intro acc
    rw [List.foldl_cons, ih]
    simp only [List.length_cons]
    omega

/-- After `regalloc`, the frame offset is the translation offset plus 8
bytes per computed variable. -/
theorem regalloc_offset (cg : CG) :
    (regalloc cg).2 = cg.offset + 8 * cg.vars.length := by
  unfold regalloc
  rw [regalloc_foldl]

/-- C8: for every function the translator accepts, the operand of the
prologue's `sub` on `%rsp` equals the sum of the sizes of all `Mem`
slots created during translation plus 8 bytes for each computed `Var`
created (literal operands contribute nothing). -/
theorem frame_size_eq (p : Program) (name : String) (cg : CG) (sig0 : List Nat)
    (h : translate p = some (name, cg)) :
    (compile name cg sig0).getD 5 "" =
      wr ("sub $" ++ toString ((cg.mems.map Mem.size).sum + 8 * cg.vars.length) ++ ", %rsp") := by
  unfold translate at h
  cases hwk : walk p.body cg0 with
  | none =>
    rw [hwk] at h
    exact absurd h (by simp)
  | some pr =>
    obtain ⟨r0, cgx⟩ := pr
    rw [hwk] at h
    have h' : some (p.fname, cgx) = some (name, cg) := h
    have hcg : cgx = cg := by
      have h2 := congrArg (fun o => (o.getD ("", cg0)).2) h'
      simpa using h2
    subst hcg
    have hoff : cgx.offset = (cgx.mems.map Mem.size).sum :=
      walk_offset p.body cg0 r0 cgx hwk rfl
    simp only [compile]
    rw [List.getD_append _ _ _ 5 (by simp), List.getD_append _ _ _ 5 (by simp)]
    rw [regalloc_offset, hoff]
    rfl

/-- Witness for C8 at a concrete input: the minimal program
`int f(){ return 0; }` (no slots, no computed variables). -/
theorem frame_size_eq_witness :
    translate progMin = some ("f",
      ({ mems := [], lvars := { keys := [], nelem := 0, nused := 0 }, vars := [],
         insts := [.ret (.lit 0)], offset := 0, nextId := 1 } : CG)) ∧
    (compile "f"
      ({ mems := [], lvars := { keys := [], nelem := 0, nused := 0 }, vars := [],
         insts := [.ret (.lit 0)], offset := 0, nextId := 1 } : CG) []).getD 5 "" =
      wr ("sub $" ++ toString
        ((List.map Mem.size ([] : List Mem)).sum + 8 * ([] : List Nat).length) ++ ", %rsp") :=
  ⟨rfl, frame_size_eq progMin "f" _ [] rfl⟩


/-- Appending indented lines to indented output stays indented. -/
theorem out_append_indented {out1 ls : List String}
    (h1 : ∀ l ∈ out1, ∃ t, l = "    " ++ t) (h2 : ∀ l ∈ ls, ∃ t, l = "    " ++ t) :
    ∀ l ∈ out1 ++ ls, ∃ t, l = "    " ++ t := by
  intro l hl
  rcases List.mem_append.mp hl with h | h
  exacts [h1 l h, h2 l h]

/-- Every line `regname` emits (spill and load moves) is written with
four-space indentation. -/
theorem regname_indented (voff : List (Nat × Int)) (id : Nat) (s : RA)
    (h : ∀ l ∈ s.out, ∃ t, l = "    " ++ t) :
    ∀ l ∈ (regname voff id s).2.out, ∃ t, l = "    " ++ t := by
  intro l hl
  simp only [regname] at hl
  cases hfi : findIdx s.order id with
  | some i =>
    simp only [hfi] at hl
    exact h l hl
  | none =>
    simp only [hfi] at hl
    by_cases hlen : s.order.length < 6
    · simp only [if_pos hlen] at hl
      exact h l hl
    · simp only [if_neg hlen] at hl
      refine out_append_indented (out_append_indented h ?_) ?_ l hl
      · intro l2 hl2
        rw [List.mem_singleton.mp hl2]
        exact ⟨"movq %" ++ ((s.order.getLastD (0, "")).2 ++ (", " ++
          (toString (lookupOff voff (s.order.getLastD (0, "")).1) ++ "(%rbp)  # spill"))),
          by simp only [show ("    movq %" : String) = "    " ++ "movq %" from rfl,
            String.append_assoc]⟩
      · intro l2 hl2
        by_cases hsp : s.spilled.contains id
        · simp only [if_pos hsp] at hl2
          rw [List.mem_singleton.mp hl2]
          exact ⟨"movq " ++ (toString (lookupOff voff id) ++ ("(%rbp), %" ++
            ((s.order.getLastD (0, "")).2 ++ "  # load"))),
            by simp only [show ("    movq " : String) = "    " ++ "movq " from rfl,
              String.append_assoc]⟩
        · simp only [if_neg hsp] at hl2
          exact absurd hl2 (List.not_mem_nil l2)

/-- `str` only emits through `regname`, hence only indented lines. -/
theorem str_indented (voff : List (Nat × Int)) (v : VarRef) (s : RA)
    (h : ∀ l ∈ s.out, ∃ t, l = "    " ++ t) :
    ∀ l ∈ (str voff v s).2.out, ∃ t, l = "    " ++ t := by
  cases v with
  | var id =>
    intro l hl
    simp only [str] at hl
    exact regname_indented voff id s h l hl
  | lit n =>
    intro l hl
    simp only [str] at hl
    exact h l hl

/-- Every line `print` emits for one instruction is indented: the
mnemonic lines go through `write` and the operand resolutions only
spill/load with indentation. -/
theorem printInst_indented (voff : List (Nat × Int)) (s : RA) (inst : Inst)
    (h : ∀ l ∈ s.out, ∃ t, l = "    " ++ t) :
    ∀ l ∈ (printInst voff s inst).out, ∃ t, l = "    " ++ t := by
  cases inst with
  | add dst lv rv =>
    intro l hl
    simp only [printInst] at hl
    have h1 := str_indented voff lv s h
    have h2 := str_indented voff dst (str voff lv s).2 h1
    have h3 : ∀ l2 ∈ (str voff dst (str voff lv s).2).2.out ++
        [wr ("movq " ++ (str voff lv s).1 ++ ", " ++ (str voff dst (str voff lv s).2).1)],
        ∃ t, l2 = "    " ++ t :=
      out_append_indented h2 (by intro l2 hl2; rw [List.mem_singleton.mp hl2]; exact ⟨_, rfl⟩)
    have h4 := str_indented voff rv
      { order := (str voff dst (str voff lv s).2).2.order,
        spilled := (str voff dst (str voff lv s).2).2.spilled,
        out := (str voff dst (str voff lv s).2).2.out ++
          [wr ("movq " ++ (str voff lv s).1 ++ ", " ++ (str voff dst (str voff lv s).2).1)] } h3
    have h5 := str_indented voff dst _ h4
    exact out_append_indented h5
      (by intro l2 hl2; rw [List.mem_singleton.mp hl2]; exact ⟨_, rfl⟩) l hl
  | mul dst lv rv =>
    intro l hl
    simp only [printInst] at hl
    have h1 := str_indented voff lv s h
    have h2 := str_indented voff dst (str voff lv s).2 h1
    have h3 : ∀ l2 ∈ (str voff dst (str voff lv s).2).2.out ++
        [wr ("movq " ++ (str voff lv s).1 ++ ", " ++ (str voff dst (str voff lv s).2).1)],
        ∃ t, l2 = "    " ++ t :=
      out_append_indented h2 (by intro l2 hl2; rw [List.mem_singleton.mp hl2]; exact ⟨_, rfl⟩)
    have h4 := str_indented voff rv
      { order := (str voff dst (str voff lv s).2).2.order,
        spilled := (str voff dst (str voff lv s).2).2.spilled,
        out := (str voff dst (str voff lv s).2).2.out ++
          [wr ("movq " ++ (str voff lv s).1 ++ ", " ++ (str voff dst (str voff lv s).2).1)] } h3
    have h5 := str_indented voff dst _ h4
    exact out_append_indented h5
      (by intro l2 hl2; rw [List.mem_singleton.mp hl2]; exact ⟨_, rfl⟩) l hl
  | ret v =>
    intro l hl
    simp only [printInst] at hl
    have h1 := str_indented voff v s h
    refine out_append_indented h1 ?_ l hl
    intro l2 hl2
    rcases List.mem_cons.mp hl2 with h' | h'
    · exact h' ▸ ⟨_, rfl⟩
    · rw [List.mem_singleton.mp h']
      exact ⟨_, rfl⟩
  | load dst m =>
    intro l hl
    simp only [printInst] at hl
    have h1 := str_indented voff dst s h
    exact out_append_indented h1
      (by intro l2 hl2; rw [List.mem_singleton.mp hl2]; exact ⟨_, rfl⟩) l hl
  | store m src =>
    intro l hl
    simp only [printInst] at hl
    have h1 := str_indented voff src s h
    exact out_append_indented h1
      (by intro l2 hl2; rw [List.mem_singleton.mp hl2]; exact ⟨_, rfl⟩) l hl

/-- All body lines of the emitted function are indented. -/
theorem printInsts_indented (voff : List (Nat × Int)) :
    ∀ (insts : List Inst) (s : RA),
      (∀ l ∈ s.out, ∃ t, l = "    " ++ t) →
      ∀ l ∈ (printInsts voff insts s).out, ∃ t, l = "    " ++ t := by
  intro insts
  induction insts with
  | nil => intro s h; exact h
  | cons i rest ih =>
    intro s h
    have hstep := printInst_indented voff s i h
    exact ih (printInst voff s i) hstep

/-- C9 (amended): the emitted text per function is the `.text`
directive, the `.globl` directive, the `name:` label — all unindented —
then the three prologue mnemonics, the body lines, the `end:` epilogue
label, and the three epilogue mnemonics ending in `ret`, where every
line from the prologue on is four-space indented: the C code emits the
`end:` label through the indenting `write`, so contrary to the claim it
is indented like a mnemonic, not set off like the `name:` label. -/
theorem compile_text_structure (name : String) (cg : CG) (sig0 : List Nat) :
    ∃ body,
      compile name cg sig0 =
        [".text", ".globl " ++ name, name ++ ":",
         "    " ++ "push %rbp", "    " ++ "mov %rsp, %rbp",
         "    " ++ ("sub $" ++ toString (regalloc cg).2 ++ ", %rsp")] ++
        body ++
        ["    " ++ "end:", "    " ++ ("add $" ++ toString (regalloc cg).2 ++ ", %rsp"),
         "    " ++ "popq %rbp", "    " ++ "ret"] ∧
      ∀ l ∈ body, ∃ t, l = "    " ++ t := by
  refine ⟨(printInsts (regalloc cg).1 cg.insts
    { order := [], spilled := sig0, out := [] }).out, rfl, ?_⟩
  exact printInsts_indented (regalloc cg).1 cg.insts _ (by intro l hl; exact absurd hl (List.not_mem_nil l))

end EightCC
